import Mathlib

/-!
Verification of the WebChat repository: a shallow embedding of the backend
HTTP handlers (Hono routes over a key-value table) and of the client-side
text-rendering logic (URL classification for embeds, spoiler parsing),
with theorems settling the specification claims.
-/

set_option maxRecDepth 10000

/- ================= Data model ================= -/

/-- A stored message document, as built by the backend `POST /messages`
and `POST /messages/edit` handlers.  `Option` fields encode JSON fields
that may be absent or `null` in the stored document. -/
structure MsgDoc where
  id : String
  username : String
  text : String
  timestamp : Int
  replyTo : Option String
  fileUrl : Option String
  fileType : Option String
  fileName : Option String
  editedAt : Option Int
  nameColor : Option String
  messageBackground : Option String
deriving DecidableEq, Repr

/-- A presence record stored in `chat_stats.onlineUsers`. -/
structure PresenceRec where
  id : String
  lastSeen : Int
deriving DecidableEq, Repr

/-- The `chat_stats` document: view count and presence records. -/
structure StatsDoc where
  views : Nat
  onlineUsers : List PresenceRec
deriving DecidableEq, Repr

/-- The `chat_settings` document. -/
structure SettingsDoc where
  backgroundImage : Option String
  panelColor : String
  iconColor : String
  panelOpacity : Int
deriving DecidableEq, Repr

/-- A JSON document stored as a value in the key-value table. -/
inductive Doc where
  | msg (m : MsgDoc)
  | stats (s : StatsDoc)
  | settings (s : SettingsDoc)
deriving DecidableEq, Repr

/- ================= Key-value store ================= -/

/-- Modelled from the spec: the backend imports `kv_store.tsx`, which is not
among the source files; the spec and the SQL migration describe it as a
managed key-value table (`key TEXT PRIMARY KEY, value JSONB`) with
operations `get`, `set`, `mdel` and `getByPrefix`.  We model the table as
an association list from keys to documents; `kvSet` replaces any existing
binding for the key. -/
def KV : Type := List (String × Doc)

instance : DecidableEq KV := by unfold KV; infer_instance

instance : Membership (String × Doc) KV := by unfold KV; infer_instance

/-- Modelled from the spec: `kv.get` returns the document stored under a
key, if any. -/
def kvGet (store : KV) (k : String) : Option Doc :=
  (List.find? (fun p => p.1 = k) store).map Prod.snd

/-- Modelled from the spec: `kv.set` stores a document under a key,
replacing any existing binding. -/
def kvSet (store : KV) (k : String) (v : Doc) : KV :=
  (k, v) :: List.filter (fun p => p.1 ≠ k) store

/-- Modelled from the spec: `kv.mdel` deletes all bindings for the listed
keys. -/
def kvMdel (store : KV) (ks : List String) : KV :=
  List.filter (fun p => ¬ ks.contains p.1) store

/-- Key prefix test, on the underlying character lists. -/
def keyHasPre (pre k : String) : Bool :=
  pre.data.isPrefixOf k.data

/-- Modelled from the spec: `kv.getByPrefix` returns the documents stored
under keys having the given prefix. -/
def kvGetPrefixed (store : KV) (pre : String) : List Doc :=
  (List.filter (fun p => keyHasPre pre p.1) store).map Prod.snd

/-- Alias of the standard boolean-to-propositional characterisation of
list prefixes. -/
theorem isPrefixOf_iff_pre {α : Type} [BEq α] [LawfulBEq α] {l₁ l₂ : List α} :
    l₁.isPrefixOf l₂ = true ↔ l₁ <+: l₂ :=
  List.isPrefixOf_iff_prefix

/-- Alias: a take is a prefix. -/
theorem take_isPre {α : Type} (n : Nat) (l : List α) : l.take n <+: l :=
  List.take_prefix n l

/-- Alias: a takeWhile is a prefix. -/
theorem takeWhile_isPre {α : Type} (p : α → Bool) (l : List α) :
    l.takeWhile p <+: l :=
  List.takeWhile_prefix p

/- ================= Backend handlers ================= -/

/-- The sort key used by `GET /messages` (`a.timestamp - b.timestamp`);
non-message documents never sit under `msg_` keys via the API, and are
given key 0. -/
def timestampOf : Doc → Int
  | .msg m => m.timestamp
  | _ => 0

/-- The comparison relation of the `GET /messages` sort. -/
def docLe (a b : Doc) : Prop := timestampOf a ≤ timestampOf b

instance : DecidableRel docLe := fun a b => by unfold docLe; infer_instance

instance : IsTotal Doc docLe := ⟨fun a b => Int.le_total (timestampOf a) (timestampOf b)⟩

instance : IsTrans Doc docLe := ⟨fun _ _ _ h1 h2 => Int.le_trans h1 h2⟩

/-- Embeds `GET /messages`: fetch all documents under keys with prefix
`msg_` and sort them by ascending `timestamp`. -/
def getMessagesList (store : KV) : List Doc :=
  List.insertionSort docLe (kvGetPrefixed store "msg_")

/-- The request body of `POST /messages`, with the fields the client sends
(`sendMessage` in App.tsx also includes `nameColor` and
`messageBackground`). -/
structure CreateReq where
  id : String
  username : String
  text : String
  timestamp : Int
  replyTo : Option String
  fileUrl : Option String
  fileType : Option String
  fileName : Option String
  nameColor : Option String
  messageBackground : Option String
deriving DecidableEq, Repr

/-- Embeds the JS `x || null` applied to an optional string field: an
absent, null or empty-string value becomes `null`. -/
def orNullStr : Option String → Option String
  | some s => if s = "" then none else some s
  | none => none

/-- The document built by `POST /messages`: exactly the eight destructured
fields; `nameColor` and `messageBackground` from the request body are not
copied into it. -/
def mkMessage (r : CreateReq) : MsgDoc :=
  { id := r.id
    username := r.username
    text := r.text
    timestamp := r.timestamp
    replyTo := orNullStr r.replyTo
    fileUrl := orNullStr r.fileUrl
    fileType := orNullStr r.fileType
    fileName := orNullStr r.fileName
    editedAt := none
    nameColor := none
    messageBackground := none }

/-- The message key `msg_<id>`. -/
def msgKey (id : String) : String := "msg_" ++ id

/-- Embeds `POST /messages`: store the rebuilt document under `msg_<id>`. -/
def postMessages (store : KV) (r : CreateReq) : KV × MsgDoc :=
  (kvSet store (msgKey r.id) (Doc.msg (mkMessage r)), mkMessage r)

/-- Response of `POST /messages/delete`. -/
inductive DelResp where
  | ok
  | forbidden
deriving DecidableEq, Repr

/-- Embeds `POST /messages/delete`: reject with 403 unless the password is
the hardcoded `Ramakrishna`, else delete the keys `msg_<id>`. -/
def postDelete (store : KV) (ids : List String) (password : String) : KV × DelResp :=
  if password ≠ "Ramakrishna" then (store, .forbidden)
  else (kvMdel store (ids.map msgKey), .ok)

/-- Response of `POST /messages/edit`. -/
inductive EditResp where
  | ok (m : MsgDoc)
  | badRequest
  | notFound
  | forbidden
deriving DecidableEq, Repr

/-- Embeds `POST /messages/edit`.  The three body fields are `Option`s
(`none` encodes an absent or non-string JSON value); the falsy checks
`!id`/`!username` also reject empty strings, while `typeof newText !==
'string'` accepts the empty string.  A stored non-message document under
the key would have `username` absent and mismatch (403); via the API this
cannot occur. -/
def postEdit (store : KV) (id? newText? username? : Option String) (now : Int) :
    KV × EditResp :=
  match id?, newText?, username? with
  | some id, some newText, some username =>
    if id = "" ∨ username = "" then (store, .badRequest)
    else
      match kvGet store (msgKey id) with
      | some (.msg m) =>
        if m.username ≠ username then (store, .forbidden)
        else
          let updated : MsgDoc := { m with text := newText.trim, editedAt := some now }
          (kvSet store (msgKey id) (.msg updated), .ok updated)
      | some _ => (store, .forbidden)
      | none => (store, .notFound)
  | _, _, _ => (store, .badRequest)

/-- The `chat_stats` document read by `GET /stats` and `POST /presence`,
with the handlers' default `{ views: 0, onlineUsers: [] }`. -/
def getChatStats (store : KV) : StatsDoc :=
  match kvGet store "chat_stats" with
  | some (.stats s) => s
  | _ => { views := 0, onlineUsers := [] }

/-- The presence records currently stored under `chat_stats`. -/
def storedUsers (store : KV) : List PresenceRec :=
  (getChatStats store).onlineUsers

/-- The view count currently stored under `chat_stats`. -/
def storedViews (store : KV) : Nat :=
  (getChatStats store).views

/-- The 10-second inactivity window test (`now - user.lastSeen < 10000`). -/
def inWindow (now : Int) (u : PresenceRec) : Bool :=
  now - u.lastSeen < 10000

/-- Response of `GET /stats` and `POST /presence`. -/
structure StatsResp where
  views : Nat
  onlineCount : Nat
deriving DecidableEq, Repr

/-- Embeds `GET /stats`: the handler filters its local copy of
`onlineUsers` before responding but never writes the store back. -/
def getStats (store : KV) (now : Int) : KV × StatsResp :=
  let stats := getChatStats store
  let pruned := stats.onlineUsers.filter (inWindow now)
  (store, { views := stats.views, onlineCount := pruned.length })

/-- Embeds the `findIndex`/update-or-push step of `POST /presence`: set
`lastSeen` of the first record with the given id, or append a fresh
record. -/
def updateSeen (users : List PresenceRec) (userId : String) (now : Int) :
    List PresenceRec :=
  match users with
  | [] => [{ id := userId, lastSeen := now }]
  | u :: rest =>
    if u.id = userId then { u with lastSeen := now } :: rest
    else u :: updateSeen rest userId now

/-- Embeds `POST /presence`: bump views on a new visit, update the user's
`lastSeen`, prune records outside the window, and persist. -/
def postPresence (store : KV) (userId : String) (isNewVisit : Bool) (now : Int) :
    KV × StatsResp :=
  let stats := getChatStats store
  let views := if isNewVisit then stats.views + 1 else stats.views
  let users := (updateSeen stats.onlineUsers userId now).filter (inWindow now)
  let newStats : StatsDoc := { views := views, onlineUsers := users }
  (kvSet store "chat_stats" (.stats newStats),
   { views := views, onlineCount := users.length })

/-- Embeds `POST /settings`: store the body under `chat_settings`. -/
def postSettings (store : KV) (s : SettingsDoc) : KV :=
  kvSet store "chat_settings" (.settings s)

/-- One backend operation touching the key-value store; the two upload
endpoints write only the external blob bucket and leave the table
untouched. -/
inductive Op where
  | getMessages
  | postMessage (r : CreateReq)
  | deleteMessages (ids : List String) (password : String)
  | editMessage (id? newText? username? : Option String) (now : Int)
  | uploadFile
  | uploadBackground
  | getSettings
  | updateSettings (s : SettingsDoc)
  | statsRead (now : Int)
  | presence (userId : String) (isNewVisit : Bool) (now : Int)

/-- The store transition of each backend operation. -/
def applyOp (store : KV) : Op → KV
  | .getMessages => store
  | .postMessage r => (postMessages store r).1
  | .deleteMessages ids pw => (postDelete store ids pw).1
  | .editMessage i t u now => (postEdit store i t u now).1
  | .uploadFile => store
  | .uploadBackground => store
  | .getSettings => store
  | .updateSettings s => postSettings store s
  | .statsRead now => (getStats store now).1
  | .presence uid isNew now => (postPresence store uid isNew now).1

/- ================= Client URL classification ================= -/

/-- Substring containment on character lists (the JS `url.match(/pat/)`
test for a literal pattern): some suffix position starts with `pat`. -/
def hasSub (pat : List Char) : List Char → Bool
  | [] => pat.isEmpty
  | c :: rest => pat.isPrefixOf (c :: rest) || hasSub pat rest

/-- Leftmost regex match of `pat` followed by a nonempty greedy capture of
characters satisfying `keep` (`/pat([keep]+)/`): a position where the
capture would be empty does not match, and scanning resumes one character
later. -/
def findCapture (pat : List Char) (keep : Char → Bool) : List Char → Option (List Char)
  | [] => none
  | c :: rest =>
    if pat.isPrefixOf (c :: rest) then
      let cap := ((c :: rest).drop pat.length).takeWhile keep
      if cap.isEmpty then findCapture pat keep rest else some cap
    else findCapture pat keep rest

/-- Leftmost match of the watch-URL parameter regex `[?&]v=([^&]+)`. -/
def findVParam : List Char → Option (List Char)
  | [] => none
  | c :: rest =>
    if (c = '?' ∨ c = '&') ∧ "v=".data.isPrefixOf rest then
      let cap := (rest.drop 2).takeWhile (fun ch => ch ≠ '&')
      if cap.isEmpty then findVParam rest else some cap
    else findVParam rest

/-- Length of a case-insensitive `https?:\/\/` scheme prefix, if present. -/
def schemeLen (l : List Char) : Option Nat :=
  let low := l.map Char.toLower
  if "http://".data.isPrefixOf low then some 7
  else if "https://".data.isPrefixOf low then some 8
  else none

/-- The two quote characters of the regex class in `renderMessageContent`. -/
def isQuoteChar (c : Char) : Bool := c = '"' ∨ c = Char.ofNat 39

/-- Embeds the quoted-URL regex `/["']((https?:\/\/[^"']+))["']/i`:
leftmost opening quote followed by a scheme, a nonempty run of non-quote
characters, and a closing quote; returns the captured URL. -/
def quotedUrl : List Char → Option (List Char)
  | [] => none
  | c :: rest =>
    if isQuoteChar c then
      match schemeLen rest with
      | some k =>
        let run := (rest.drop k).takeWhile (fun ch => ¬ isQuoteChar ch)
        if run.isEmpty then quotedUrl rest
        else
          match (rest.drop k).drop run.length with
          | _ :: _ => some (rest.take k ++ run)
          | [] => quotedUrl rest
      | none => quotedUrl rest
    else quotedUrl rest

/-- Embeds the exact-URL test `/^(https?:\/\/[^\s]+)$/i`. -/
def isExactUrl (l : List Char) : Bool :=
  match schemeLen l with
  | some k => ¬ (l.drop k).isEmpty && (l.drop k).all (fun c => ¬ c.isWhitespace)
  | none => false

/-- The video file extensions of the direct-video check. -/
def extListVideo : List String :=
  ["mp4", "webm", "ogg", "ogv", "mov", "avi", "mkv", "flv", "wmv", "m4v",
   "3gp", "mpg", "mpeg", "ts", "m2ts", "mts", "m3u8", "mxf"]

/-- The audio file extensions of the direct-audio check. -/
def extListAudio : List String :=
  ["mp3", "wav", "m4a", "ogg", "oga", "aac", "flac", "wma", "aiff", "aif",
   "aifc", "alac", "ape", "opus", "amr", "mid", "midi", "ra", "rm", "wv",
   "tta", "tak", "mka", "dts", "ac3", "eac3", "mlp", "pcm", "au", "snd",
   "m4b", "m4p", "3gp", "aa", "aax"]

/-- The image file extensions of the direct-image check. -/
def extListImage : List String :=
  ["jpg", "jpeg", "png", "gif", "webp", "bmp", "svg", "ico", "tiff", "tif",
   "psd", "ai", "eps", "raw", "cr2", "nef", "orf", "sr2", "jfif", "jpe",
   "heic", "heif", "avif", "apng"]

/-- The text and PDF extensions of the document check. -/
def extListDoc : List String := ["txt", "pdf", "doc", "docx"]

/-- Does `l` end with `.ext` for one of the extensions? -/
def matchesDotExt (exts : List String) (l : List Char) : Bool :=
  exts.any (fun e => ("." ++ e).data.isSuffixOf l)

/-- All proper prefixes of `l` that end right before a question mark. -/
def qSplitPres : List Char → List (List Char)
  | [] => []
  | c :: rest =>
    (if c = '?' then [([] : List Char)] else []) ++
      (qSplitPres rest).map (fun p => c :: p)

/-- Embeds the extension regexes `\.(e1|e2|...)(\?.*)?$` (applied
case-insensitively: callers pass the lowered URL): the URL ends with a
listed `.ext`, optionally followed by a query string starting at `?`. -/
def extMatch (exts : List String) (l : List Char) : Bool :=
  matchesDotExt exts l || (qSplitPres l).any (matchesDotExt exts)

/-- The JSX branch `renderMessageContent` returns for a message text,
abstracted to the kind of element and its determining data. -/
inductive Rendered where
  | quotedLink (url : String)
  | youtube (embedUrl : String)
  | vimeo (embedUrl : String)
  | tiktok (embedUrl : String)
  | twitch (channel : String)
  | dailymotion (embedUrl : String)
  | soundcloud (url : String)
  | video (url : String)
  | audio (url : String)
  | image (url : String)
  | docFrame (url : String)
  | genericFrame (url : String)
  | textContent
deriving DecidableEq, Repr

/-- The YouTube branch: `watchMatch`, `shortMatch` and `embedMatch` are
computed in order, each assignment overriding the previous one, so the
embed form wins over the short form which wins over the watch form. -/
def ytEmbedUrl (u : List Char) : Option (List Char) :=
  let watchRes := findVParam u
  let shortRes := findCapture "youtu.be/".data (fun c => c ≠ '?' && c ≠ '&') u
  let embedRes := findCapture "youtube.com/embed/".data (fun c => c ≠ '?' && c ≠ '&') u
  match embedRes with
  | some _ => some u
  | none =>
    match shortRes with
    | some cap => some ("https://www.youtube.com/embed/".data ++ cap)
    | none =>
      match watchRes with
      | some cap => some ("https://www.youtube.com/embed/".data ++ cap)
      | none => none

/-- The YouTube platform check (`/youtube\.com|youtu\.be/i`). -/
def ytCheck (u low : List Char) : Option Rendered :=
  if hasSub "youtube.com".data low || hasSub "youtu.be".data low then
    (ytEmbedUrl u).map (fun e => .youtube (String.mk e))
  else none

/-- The Vimeo platform check (`/vimeo\.com/i` then `/vimeo\.com\/(\d+)/`). -/
def vimeoCheck (u low : List Char) : Option Rendered :=
  if hasSub "vimeo.com".data low then
    (findCapture "vimeo.com/".data Char.isDigit u).map
      (fun d => .vimeo (String.mk ("https://player.vimeo.com/video/".data ++ d)))
  else none

/-- The TikTok platform check (`/tiktok\.com/i` then `/video\/(\d+)/`). -/
def tiktokCheck (u low : List Char) : Option Rendered :=
  if hasSub "tiktok.com".data low then
    (findCapture "video/".data Char.isDigit u).map
      (fun d => .tiktok (String.mk ("https://www.tiktok.com/embed/v2/".data ++ d)))
  else none

/-- The Twitch platform check (`/twitch\.tv/i` then `/twitch\.tv\/([^\/]+)/`). -/
def twitchCheck (u low : List Char) : Option Rendered :=
  if hasSub "twitch.tv".data low then
    (findCapture "twitch.tv/".data (fun c => c ≠ '/') u).map
      (fun ch => .twitch (String.mk ch))
  else none

/-- The Dailymotion platform check (`/dailymotion\.com/i` then
`/video\/([^_]+)/`). -/
def dailymotionCheck (u low : List Char) : Option Rendered :=
  if hasSub "dailymotion.com".data low then
    (findCapture "video/".data (fun c => c ≠ '_') u).map
      (fun d => .dailymotion (String.mk ("https://www.dailymotion.com/embed/video/".data ++ d)))
  else none

/-- The SoundCloud platform check (`/soundcloud\.com/i`). -/
def soundcloudCheck (u low : List Char) : Option Rendered :=
  if hasSub "soundcloud.com".data low then some (.soundcloud (String.mk u))
  else none

/-- The classification chain applied to an exact unquoted URL, in source
order: YouTube, Vimeo, TikTok, Twitch, Dailymotion, SoundCloud, then the
video, audio, image and document extension checks, then a generic iframe. -/
def classifyUrl (u : List Char) : Rendered :=
  let low := u.map Char.toLower
  match (((((ytCheck u low).orElse (fun _ => vimeoCheck u low)).orElse
      (fun _ => tiktokCheck u low)).orElse
      (fun _ => twitchCheck u low)).orElse
      (fun _ => dailymotionCheck u low)).orElse
      (fun _ => soundcloudCheck u low) with
  | some r => r
  | none =>
    if extMatch extListVideo low then .video (String.mk u)
    else if extMatch extListAudio low then .audio (String.mk u)
    else if extMatch extListImage low then .image (String.mk u)
    else if extMatch extListDoc low then .docFrame (String.mk u)
    else .genericFrame (String.mk u)

/-- Embeds the branch selection of `renderMessageContent` on the message
text: a quoted URL renders as a link, an exact unquoted URL enters the
classification chain, anything else reaches the spoiler/text path. -/
def renderMessageContent (t : List Char) : Rendered :=
  match quotedUrl t with
  | some url => .quotedLink (String.mk url)
  | none => if isExactUrl t then classifyUrl t else .textContent

/- ================= Client spoiler parsing ================= -/

/-- One part of a parsed message text: plain text, or a spoiler block with
the title and content the `SpoilerBlock` component receives. -/
inductive TextPart where
  | text (s : List Char)
  | spoiler (title content : List Char)
deriving DecidableEq, Repr

/-- Leftmost split of `l` around the first occurrence of `pat`:
`some (a, b)` when `l = a ++ pat ++ b` with the occurrence leftmost. -/
def splitOnSub (pat : List Char) : List Char → Option (List Char × List Char)
  | [] => if pat.isEmpty then some ([], []) else none
  | c :: rest =>
    if pat.isPrefixOf (c :: rest) then some ([], (c :: rest).drop pat.length)
    else
      match splitOnSub pat rest with
      | some (a, b) => some (c :: a, b)
      | none => none

/-- A full spoiler-regex match anchored at the start of `l`:
`[spoiler:` then a greedy `[^\]]*` title, the literal `]`, then the lazy
content running to the first `[/spoiler]`.  Returns title, content and
the remainder after the match. -/
def spoilerAt (l : List Char) : Option (List Char × List Char × List Char) :=
  if "[spoiler:".data.isPrefixOf l then
    let after := l.drop 9
    let title := after.takeWhile (fun ch => ch ≠ ']')
    match after.drop title.length with
    | ']' :: afterBracket =>
      (splitOnSub "[/spoiler]".data afterBracket).map
        (fun p => (title, p.1, p.2))
    | _ => none
  else none

/-- Leftmost spoiler-regex match in `l` (the `spoilerRegex.exec` search):
the text before the match, the title, the content, and the remainder. -/
def findSpoiler : List Char → Option (List Char × List Char × List Char × List Char)
  | [] => none
  | c :: rest =>
    match spoilerAt (c :: rest) with
    | some (t, ct, r) => some ([], t, ct, r)
    | none =>
      match findSpoiler rest with
      | some (pre, t, ct, r) => some (c :: pre, t, ct, r)
      | none => none

/-- Reconstruction: a successful `splitOnSub` splits `l` exactly. -/
theorem splitOnSub_some {pat : List Char} : ∀ {l a b : List Char},
    splitOnSub pat l = some (a, b) → l = a ++ pat ++ b := by
  intro l
  induction l with
  | nil =>
    intro a b h
    simp only [splitOnSub] at h
    by_cases hp : pat.isEmpty
    · rw [if_pos hp] at h
      simp only [Option.some.injEq, Prod.mk.injEq] at h
      obtain ⟨rfl, rfl⟩ := h
      simp [List.isEmpty_iff.mp hp]
    · rw [if_neg hp] at h
      exact absurd h (by simp)
  | cons c rest ih =>
    intro a b h
    simp only [splitOnSub] at h
    split at h
    · next hpre =>
      have hp := isPrefixOf_iff_pre.mp hpre
      have heq := List.prefix_iff_eq_append.mp hp
      simp only [Option.some.injEq, Prod.mk.injEq] at h
      obtain ⟨rfl, rfl⟩ := h
      simpa using heq.symm
    · next hpre =>
      cases hrec : splitOnSub pat rest with
      | none => rw [hrec] at h; exact absurd h (by simp)
      | some p =>
        rw [hrec] at h
        simp only [Option.some.injEq, Prod.mk.injEq] at h
        obtain ⟨rfl, rfl⟩ := h
        have := ih (a := p.1) (b := p.2) (by rw [hrec])
        simp [this]

/-- Reconstruction: a spoiler match at the head of `l` decomposes `l`
into the markup pieces exactly. -/
theorem spoilerAt_some {l t ct r : List Char}
    (h : spoilerAt l = some (t, ct, r)) :
    l = "[spoiler:".data ++ t ++ (']' :: (ct ++ "[/spoiler]".data ++ r)) := by
  simp only [spoilerAt] at h
  split at h
  · next hpre =>
    have hp := isPrefixOf_iff_pre.mp hpre
    have hl : "[spoiler:".data ++ (l.drop 9) = l := by
      have := List.prefix_iff_eq_append.mp hp
      simpa using this
    split at h
    · next afterBracket heq =>
      cases hsp : splitOnSub "[/spoiler]".data afterBracket with
      | none => rw [hsp] at h; exact absurd h (by simp)
      | some p =>
        rw [hsp] at h
        simp only [Option.map_some', Option.some.injEq, Prod.mk.injEq] at h
        obtain ⟨rfl, rfl, rfl⟩ := h
        set t0 := (l.drop 9).takeWhile (fun ch => ch ≠ ']') with ht0
        have htw : t0 ++ (l.drop 9).drop t0.length = l.drop 9 := by
          have := takeWhile_isPre (l := l.drop 9) (fun ch => ch ≠ ']')
          rw [ht0]
          simpa using List.prefix_iff_eq_append.mp this
        have h2 : l.drop 9 = t0 ++ (']' :: afterBracket) := by
          rw [← heq]
          exact htw.symm
        have hsplit := splitOnSub_some hsp
        calc l = "[spoiler:".data ++ (l.drop 9) := hl.symm
          _ = "[spoiler:".data ++ (t0 ++ (']' :: afterBracket)) := by rw [h2]
          _ = "[spoiler:".data ++ t0 ++ (']' :: (p.1 ++ "[/spoiler]".data ++ p.2)) := by
              rw [hsplit]; simp [List.append_assoc]
    · exact absurd h (by simp)
  · exact absurd h (by simp)

/-- The remainder of a head spoiler match is strictly shorter. -/
theorem spoilerAt_length {l t ct r : List Char}
    (h : spoilerAt l = some (t, ct, r)) : r.length < l.length := by
  have := congrArg List.length (spoilerAt_some h)
  simp [List.length_append] at this
  omega

/-- Reconstruction: a leftmost spoiler match decomposes `l` exactly. -/
theorem findSpoiler_some : ∀ {l pre t ct r : List Char},
    findSpoiler l = some (pre, t, ct, r) →
    l = pre ++ "[spoiler:".data ++ t ++ ']' :: (ct ++ "[/spoiler]".data ++ r) := by
  intro l
  induction l with
  | nil => intro pre t ct r h; exact absurd h (by simp [findSpoiler])
  | cons c rest ih =>
    intro pre t ct r h
    simp only [findSpoiler] at h
    cases hat : spoilerAt (c :: rest) with
    | some q =>
      rw [hat] at h
      simp only [Option.some.injEq, Prod.mk.injEq] at h
      obtain ⟨rfl, rfl, rfl, rfl⟩ := h
      have h3 := @spoilerAt_some (c :: rest) q.1 q.2.1 q.2.2 (by rw [hat])
      rw [h3]; simp [List.append_assoc]
    | none =>
      rw [hat] at h
      cases hrec : findSpoiler rest with
      | none => rw [hrec] at h; exact absurd h (by simp)
      | some p =>
        rw [hrec] at h
        simp only [Option.some.injEq, Prod.mk.injEq] at h
        obtain ⟨rfl, rfl, rfl, rfl⟩ := h
        have := @ih p.1 p.2.1 p.2.2.1 p.2.2.2 (by rw [hrec])
        simpa using this

/-- The remainder of a leftmost spoiler match is strictly shorter. -/
theorem findSpoiler_length {l pre t ct r : List Char}
    (h : findSpoiler l = some (pre, t, ct, r)) : r.length < l.length := by
  have := congrArg List.length (findSpoiler_some h)
  simp [List.length_append] at this
  omega

/-- Embeds the match loop of `renderTextWithSpoilersAndLinks` after the
first match: text between matches and a trailing nonempty text part. -/
def parseTail (l : List Char) : List TextPart :=
  match h : findSpoiler l with
  | none => if l.isEmpty then [] else [TextPart.text l]
  | some (pre, t, ct, rest) =>
    (if pre.isEmpty then [] else [TextPart.text pre]) ++
      TextPart.spoiler t ct :: parseTail rest
termination_by l.length
decreasing_by exact findSpoiler_length h

/-- Embeds the spoiler-splitting pass of `renderTextWithSpoilersAndLinks`:
when no spoiler matches, the whole text is one text part (the JS code
pushes the text even when it is empty); otherwise parts alternate between
the text before each match and the spoiler blocks. -/
def parseSpoilers (l : List Char) : List TextPart :=
  match findSpoiler l with
  | none => [TextPart.text l]
  | some (pre, t, ct, rest) =>
    (if pre.isEmpty then [] else [TextPart.text pre]) ++
      TextPart.spoiler t ct :: parseTail rest

/-- The source text a parsed part corresponds to. -/
def flattenPart : TextPart → List Char
  | .text s => s
  | .spoiler t c => "[spoiler:".data ++ t ++ ']' :: (c ++ "[/spoiler]".data)

/-- The source text a parse result corresponds to. -/
def flattenParts (ps : List TextPart) : List Char :=
  ps.foldr (fun p acc => flattenPart p ++ acc) []

/- ================= Scanning lemmas ================= -/

/-- Decomposition of a prefix of an appended list. -/
theorem prefix_append_cases {α : Type} {p a b : List α} (h : p <+: a ++ b) :
    p <+: a ∨ (a <+: p ∧ p.drop a.length <+: b) := by
  by_cases hle : p.length ≤ a.length
  · left
    have hp := List.prefix_iff_eq_take.mp h
    rw [List.take_append_eq_append_take] at hp
    have h0 : p.length - a.length = 0 := by omega
    rw [h0] at hp
    simp at hp
    rw [hp]
    exact take_isPre _ _
  · right
    obtain ⟨t, ht⟩ := h
    have hlen : a.length ≤ p.length := by omega
    constructor
    · have ha : a = p.take a.length := by
        have h1 : (p ++ t).take a.length = (a ++ b).take a.length := by rw [ht]
        rw [List.take_append_eq_append_take, List.take_append_eq_append_take] at h1
        have h2 : a.length - p.length = 0 := by omega
        have h3 : a.length - a.length = 0 := by omega
        rw [h2, h3] at h1
        simpa [List.take_of_length_le] using h1.symm
      rw [ha]
      exact take_isPre _ _
    · refine ⟨t, ?_⟩
      have h1 : (p ++ t).drop a.length = (a ++ b).drop a.length := by rw [ht]
      rw [List.drop_append_eq_append_drop, List.drop_append_eq_append_drop] at h1
      have h2 : a.length - p.length = 0 := by omega
      have h3 : a.length - a.length = 0 := by omega
      rw [h2, h3] at h1
      simpa using h1

/-- A pattern sharing no prefix relation with `a` cannot be a prefix of
`a ++ l`. -/
theorem isPrefixOf_append_false {pat a : List Char} (l : List Char)
    (h1 : pat.isPrefixOf a = false) (h2 : a.isPrefixOf pat = false) :
    pat.isPrefixOf (a ++ l) = false := by
  rw [← Bool.not_eq_true, isPrefixOf_iff_pre]
  intro hp
  rcases prefix_append_cases hp with hc | ⟨hc, _⟩
  · rw [← isPrefixOf_iff_pre] at hc
    simp [h1] at hc
  · rw [← isPrefixOf_iff_pre] at hc
    simp [h2] at hc

/-- No scan position of `xs` can start a match of `pat`, even allowing the
match to continue past the end of `xs`. -/
def noScanHit (pat xs : List Char) : Bool :=
  (List.range xs.length).all
    (fun i => ¬ pat.isPrefixOf (xs.drop i) ∧ ¬ (xs.drop i).isPrefixOf pat)

/-- Unfolding of `noScanHit` at a cons cell. -/
theorem noScanHit_cons {pat : List Char} {x : Char} {xs : List Char}
    (h : noScanHit pat (x :: xs) = true) :
    pat.isPrefixOf (x :: xs) = false ∧ (x :: xs).isPrefixOf pat = false ∧
      noScanHit pat xs = true := by
  have h0 := (List.all_eq_true.mp h) 0 (by simp [List.mem_range])
  simp only [List.drop_zero] at h0
  have hpair := of_decide_eq_true h0
  refine ⟨?_, ?_, ?_⟩
  · rw [← Bool.not_eq_true, isPrefixOf_iff_pre]
    simpa using hpair.1
  · rw [← Bool.not_eq_true, isPrefixOf_iff_pre]
    simpa using hpair.2
  rw [noScanHit]
  rw [List.all_eq_true]
  intro i hi
  have := (List.all_eq_true.mp h) (i + 1) (by simp [List.mem_range] at hi ⊢; omega)
  simpa using this

/-- A pattern containing a character absent from `l` occurs nowhere in `l`. -/
theorem hasSub_mem_false {pat : List Char} {c : Char} (hcp : c ∈ pat) :
    ∀ {l : List Char}, c ∉ l → hasSub pat l = false := by
  intro l
  induction l with
  | nil =>
    intro _
    have : pat ≠ [] := by intro h; rw [h] at hcp; simp at hcp
    simp [hasSub, List.isEmpty_iff, this]
  | cons d rest ih =>
    intro hc
    rw [hasSub, Bool.or_eq_false_iff]
    constructor
    · rw [← Bool.not_eq_true, isPrefixOf_iff_pre]
      intro hp
      exact hc (hp.subset hcp)
    · exact ih (fun hm => hc (List.mem_cons_of_mem d hm))

/-- A pattern containing a character absent from `l` yields no capture in
`l`. -/
theorem findCapture_mem_none {pat : List Char} {c : Char} (keep : Char → Bool)
    (hcp : c ∈ pat) :
    ∀ {l : List Char}, c ∉ l → findCapture pat keep l = none := by
  intro l
  induction l with
  | nil => intro _; rfl
  | cons d rest ih =>
    intro hc
    rw [findCapture]
    have hpre : pat.isPrefixOf (d :: rest) = false := by
      rw [← Bool.not_eq_true, isPrefixOf_iff_pre]
      intro hp
      exact hc (hp.subset hcp)
    rw [hpre]
    simp only [Bool.false_eq_true, if_false]
    exact ih (fun hm => hc (List.mem_cons_of_mem d hm))

/-- Substring absence in `xs ++ id`: no scan hit inside or straddling
`xs`, and a pattern character missing from `id`. -/
theorem hasSub_append_false {pat xs id : List Char} {c : Char}
    (hscan : noScanHit pat xs = true) (hcp : c ∈ pat) (hcid : c ∉ id) :
    hasSub pat (xs ++ id) = false := by
  induction xs with
  | nil => simpa using hasSub_mem_false hcp hcid
  | cons x rest ih =>
    obtain ⟨h1, h2, h3⟩ := noScanHit_cons hscan
    rw [List.cons_append, hasSub, Bool.or_eq_false_iff]
    refine ⟨?_, ih h3⟩
    rw [← List.cons_append]
    exact isPrefixOf_append_false id h1 h2

/-- Capture absence in `xs ++ id`, under the same conditions. -/
theorem findCapture_append_none {pat xs id : List Char} {c : Char} (keep : Char → Bool)
    (hscan : noScanHit pat xs = true) (hcp : c ∈ pat) (hcid : c ∉ id) :
    findCapture pat keep (xs ++ id) = none := by
  induction xs with
  | nil => simpa using findCapture_mem_none keep hcp hcid
  | cons x rest ih =>
    obtain ⟨h1, h2, h3⟩ := noScanHit_cons hscan
    rw [List.cons_append, findCapture]
    have hp : pat.isPrefixOf (x :: (rest ++ id)) = false := by
      rw [← List.cons_append]
      exact isPrefixOf_append_false id h1 h2
    rw [hp]
    simp only [Bool.false_eq_true, if_false]
    exact ih h3

/-- An occurrence inside `xs` stays an occurrence in `xs ++ l`. -/
theorem hasSub_append_left {pat xs : List Char} (l : List Char)
    (h : hasSub pat xs = true) : hasSub pat (xs ++ l) = true := by
  induction xs with
  | nil =>
    rw [hasSub.eq_def] at h
    simp only [List.nil_append]
    rw [List.isEmpty_iff] at h
    subst h
    cases l with
    | nil => rfl
    | cons c rest => rw [hasSub]; simp
  | cons x rest ih =>
    rw [hasSub] at h
    rw [List.cons_append, hasSub]
    rcases Bool.or_eq_true_iff.mp h with hc | hc
    · rw [isPrefixOf_iff_pre] at hc
      have h2 : pat <+: x :: (rest ++ l) := by
        rw [← List.cons_append]
        exact hc.trans (List.prefix_append _ _)
      rw [← isPrefixOf_iff_pre] at h2
      rw [h2]
      simp
    · rw [ih hc]
      simp

/-- Scanning past a hit-free concrete front. -/
theorem findCapture_skip {pat xs l : List Char} (keep : Char → Bool)
    (hscan : noScanHit pat xs = true) :
    findCapture pat keep (xs ++ l) = findCapture pat keep l := by
  induction xs with
  | nil => rfl
  | cons x rest ih =>
    obtain ⟨h1, h2, h3⟩ := noScanHit_cons hscan
    rw [List.cons_append, findCapture]
    have hp : pat.isPrefixOf (x :: (rest ++ l)) = false := by
      rw [← List.cons_append]
      exact isPrefixOf_append_false l h1 h2
    rw [hp]
    simp only [Bool.false_eq_true, if_false]
    exact ih h3

/-- A list all of whose elements satisfy `p` is its own `takeWhile`. -/
theorem takeWhile_all {p : Char → Bool} : ∀ {l : List Char},
    (∀ c ∈ l, p c = true) → l.takeWhile p = l := by
  intro l
  induction l with
  | nil => intro _; rfl
  | cons x rest ih =>
    intro h
    rw [List.takeWhile_cons, h x (by simp)]
    simp only [if_true]
    rw [ih (fun c hc => h c (List.mem_cons_of_mem x hc))]

/-- A capture match anchored at the head of `pat ++ rest`. -/
theorem findCapture_at {pat rest : List Char} (keep : Char → Bool)
    (h : rest.takeWhile keep ≠ []) :
    findCapture pat keep (pat ++ rest) = some (rest.takeWhile keep) := by
  cases hp : pat ++ rest with
  | nil =>
    have : pat = [] ∧ rest = [] := by
      constructor <;> [exact List.append_eq_nil.mp hp |>.1; exact List.append_eq_nil.mp hp |>.2]
    rw [this.2] at h
    simp at h
  | cons c tl =>
    rw [← hp, findCapture.eq_def]
    split
    · next heq => rw [heq] at hp; simp at hp
    · next c' tl' heq =>
      rw [← heq]
      have hpre : pat.isPrefixOf (pat ++ rest) = true := by
        rw [isPrefixOf_iff_pre]
        exact List.prefix_append _ _
      rw [hpre]
      simp only [if_true]
      rw [List.drop_left]
      rw [if_neg (by simpa [List.isEmpty_iff] using h)]

/-- Skipping characters that can never open a `[?&]v=` match. -/
theorem findVParam_append_skip {xs : List Char} (l : List Char)
    (h : ∀ c ∈ xs, c ≠ '?' ∧ c ≠ '&') :
    findVParam (xs ++ l) = findVParam l := by
  induction xs with
  | nil => rfl
  | cons x rest ih =>
    have hx := h x (by simp)
    rw [List.cons_append, findVParam]
    rw [if_neg (by simp [hx.1, hx.2])]
    exact ih (fun c hc => h c (List.mem_cons_of_mem x hc))

/-- A list without `?` or `&` has no `v=` parameter. -/
theorem findVParam_none {l : List Char}
    (h : ∀ c ∈ l, c ≠ '?' ∧ c ≠ '&') : findVParam l = none := by
  have := @findVParam_append_skip l [] h
  simpa using this

/-- The `[?&]v=([^&]+)` match anchored at a `?v=` position. -/
theorem findVParam_at {id : List Char}
    (h : id.takeWhile (fun ch => ch ≠ '&') ≠ []) :
    findVParam ('?' :: 'v' :: '=' :: id) = some (id.takeWhile (fun ch => ch ≠ '&')) := by
  rw [findVParam]
  rw [if_pos (by constructor <;> simp [List.isPrefixOf])]
  simp only [List.drop_succ_cons, List.drop_zero]
  rw [if_neg (by simpa [List.isEmpty_iff] using h)]

/-- A list without quote characters has no quoted URL. -/
theorem quotedUrl_none {l : List Char}
    (h : ∀ c ∈ l, isQuoteChar c = false) : quotedUrl l = none := by
  induction l with
  | nil => rfl
  | cons x rest ih =>
    rw [quotedUrl]
    rw [if_neg (by simp [h x (by simp)])]
    exact ih (fun c hc => h c (List.mem_cons_of_mem x hc))

/- ================= Identifier alphabets ================= -/

/-- The URL-safe identifier characters used to state the embed claims:
ASCII letters, digits, hyphen and underscore. -/
def idCharList : List Char :=
  "abcdefghijklmnopqrstuvwxyzABCDEFGHIJKLMNOPQRSTUVWXYZ0123456789-_".data

/-- Membership in the identifier alphabet. -/
def idChar (c : Char) : Bool := decide (c ∈ idCharList)

/-- The decimal digits. -/
def digitList : List Char := "0123456789".data

/-- A character outside the alphabet cannot occur in an identifier. -/
theorem not_mem_of_idChar {c0 : Char} {id : List Char}
    (h0 : idChar c0 = false) (hall : ∀ c ∈ id, idChar c = true) : c0 ∉ id := by
  intro hm
  rw [hall c0 hm] at h0
  exact Bool.true_eq_false.mp h0

/-- Lowercasing preserves the identifier alphabet. -/
theorem idChar_map_toLower {id : List Char} (hall : ∀ c ∈ id, idChar c = true) :
    ∀ c ∈ id.map Char.toLower, idChar c = true := by
  intro c hc
  rw [List.mem_map] at hc
  obtain ⟨c', hc', rfl⟩ := hc
  have hmem : c' ∈ idCharList := by
    have := hall c' hc'
    rw [idChar, decide_eq_true_eq] at this
    exact this
  have hfact : idCharList.all (fun c => idChar c.toLower) = true := by decide
  exact List.all_eq_true.mp hfact c' hmem

/-- Digits are identifier characters. -/
theorem idChar_of_digit {id : List Char} (hall : ∀ c ∈ id, c ∈ digitList) :
    ∀ c ∈ id, idChar c = true := by
  intro c hc
  have hfact : digitList.all (fun c => idChar c) = true := by decide
  exact List.all_eq_true.mp hfact c (hall c hc)

/-- Lowercasing fixes a digit string. -/
theorem map_toLower_digits {id : List Char} (hall : ∀ c ∈ id, c ∈ digitList) :
    id.map Char.toLower = id := by
  have hfact : digitList.all (fun c => c.toLower = c) = true := by decide
  have hcong : id.map Char.toLower = id.map (fun c => c) := by
    refine List.map_congr_left ?_
    intro c hc
    have := List.all_eq_true.mp hfact c (hall c hc)
    exact of_decide_eq_true this
  rw [hcong, List.map_id']

/-- Transfer of a decidable character fact from the alphabet to an
identifier. -/
theorem idChar_fact {p : Char → Bool} {id : List Char}
    (hfact : idCharList.all p = true) (hall : ∀ c ∈ id, idChar c = true) :
    ∀ c ∈ id, p c = true := by
  intro c hc
  have hmem : c ∈ idCharList := by
    have := hall c hc
    rw [idChar, decide_eq_true_eq] at this
    exact this
  exact List.all_eq_true.mp hfact c hmem

/- ================= URL classification lemmas ================= -/

/-- The scheme test on an `https://` URL. -/
theorem schemeLen_https (rest : List Char) :
    schemeLen ("https://".data ++ rest) = some 8 := by
  have hmap : "https://".data.map Char.toLower = "https://".data := by decide
  have hneg : "http://".data.isPrefixOf ("https://".data ++ rest.map Char.toLower) = false :=
    isPrefixOf_append_false _ (by decide) (by decide)
  have hpos : "https://".data.isPrefixOf ("https://".data ++ rest.map Char.toLower) = true := by
    rw [isPrefixOf_iff_pre]
    exact List.prefix_append _ _
  rw [schemeLen]
  simp only [List.map_append, hmap]
  simp [hneg, hpos]

/-- The exact-URL test on an `https://` URL with a nonempty
whitespace-free remainder. -/
theorem isExactUrl_https {rest : List Char} (hne : rest ≠ [])
    (hws : ∀ c ∈ rest, c.isWhitespace = false) :
    isExactUrl ("https://".data ++ rest) = true := by
  rw [isExactUrl]
  rw [schemeLen_https]
  have hdrop : ("https://".data ++ rest).drop 8 = rest :=
    List.drop_left' (by decide)
  simp only [hdrop, Bool.and_eq_true]
  constructor
  · simpa [List.isEmpty_iff] using hne
  · rw [List.all_eq_true]
    intro c hc
    simp [hws c hc]

/-- Split a pointwise property over an append. -/
theorem forall_mem_append_split {P : Char → Prop} {a b : List Char}
    (ha : ∀ c ∈ a, P c) (hb : ∀ c ∈ b, P c) : ∀ c ∈ a ++ b, P c := by
  intro c hc
  rcases List.mem_append.mp hc with h | h
  · exact ha c h
  · exact hb c h

/-- Identifier characters are not quotes. -/
theorem idAll_not_quote {id : List Char} (hall : ∀ c ∈ id, idChar c = true) :
    ∀ c ∈ id, isQuoteChar c = false :=
  fun c hc => of_decide_eq_true
    (idChar_fact (p := fun c => decide (isQuoteChar c = false)) (by decide) hall c hc)

/-- Identifier characters are not whitespace. -/
theorem idAll_not_ws {id : List Char} (hall : ∀ c ∈ id, idChar c = true) :
    ∀ c ∈ id, c.isWhitespace = false :=
  fun c hc => of_decide_eq_true
    (idChar_fact (p := fun c => decide (c.isWhitespace = false)) (by decide) hall c hc)

/-- Identifier characters are neither `?` nor `&`. -/
theorem idAll_ne_mark {id : List Char} (hall : ∀ c ∈ id, idChar c = true) :
    ∀ c ∈ id, c ≠ '?' ∧ c ≠ '&' :=
  fun c hc => of_decide_eq_true
    (idChar_fact (p := fun c => decide (c ≠ '?' ∧ c ≠ '&')) (by decide) hall c hc)

/-- The Vimeo clause: a numeric `vimeo.com` URL classifies to the player
embed URL. -/
theorem classify_vimeo_aux {id : List Char} (hne : id ≠ [])
    (hdig : ∀ c ∈ id, c ∈ digitList) :
    renderMessageContent ("https://vimeo.com/".data ++ id) =
      .vimeo (String.mk ("https://player.vimeo.com/video/".data ++ id)) := by
  have hallId : ∀ c ∈ id, idChar c = true := idChar_of_digit hdig
  have hq : quotedUrl ("https://vimeo.com/".data ++ id) = none :=
    quotedUrl_none (forall_mem_append_split (by decide) (idAll_not_quote hallId))
  have hsplit : "https://vimeo.com/".data ++ id =
      "https://".data ++ ("vimeo.com/".data ++ id) := by
    rw [show "https://vimeo.com/".data = "https://".data ++ "vimeo.com/".data from by decide,
      List.append_assoc]
  have hurl : isExactUrl ("https://vimeo.com/".data ++ id) = true := by
    rw [hsplit]
    exact isExactUrl_https (by simp)
      (forall_mem_append_split (by decide) (idAll_not_ws hallId))
  have hlow : ("https://vimeo.com/".data ++ id).map Char.toLower =
      "https://vimeo.com/".data ++ id := by
    rw [List.map_append, map_toLower_digits hdig,
      show "https://vimeo.com/".data.map Char.toLower = "https://vimeo.com/".data from by decide]
  have hyt : ytCheck ("https://vimeo.com/".data ++ id) ("https://vimeo.com/".data ++ id) = none := by
    rw [ytCheck]
    have h1 : hasSub "youtube.com".data ("https://vimeo.com/".data ++ id) = false :=
      hasSub_append_false (by decide) (show '.' ∈ "youtube.com".data by decide)
        (not_mem_of_idChar (by decide) hallId)
    have h2 : hasSub "youtu.be".data ("https://vimeo.com/".data ++ id) = false :=
      hasSub_append_false (by decide) (show '.' ∈ "youtu.be".data by decide)
        (not_mem_of_idChar (by decide) hallId)
    rw [h1, h2]
    simp
  have hdigAll : id.takeWhile Char.isDigit = id :=
    takeWhile_all (fun c hc => by
      have hfact : digitList.all Char.isDigit = true := by decide
      exact List.all_eq_true.mp hfact c (hdig c hc))
  have hvim : vimeoCheck ("https://vimeo.com/".data ++ id) ("https://vimeo.com/".data ++ id) =
      some (.vimeo (String.mk ("https://player.vimeo.com/video/".data ++ id))) := by
    rw [vimeoCheck]
    have h3 : hasSub "vimeo.com".data ("https://vimeo.com/".data ++ id) = true :=
      hasSub_append_left _ (by decide)
    have h4 : findCapture "vimeo.com/".data Char.isDigit
        ("https://vimeo.com/".data ++ id) = some id := by
      rw [hsplit, findCapture_skip _ (by decide), findCapture_at _ (by rw [hdigAll]; exact hne),
        hdigAll]
    rw [h3, h4]
    simp
  rw [renderMessageContent, hq]
  simp only [hurl, if_true]
  rw [classifyUrl]
  simp only [hlow, hyt, hvim, Option.orElse]

/-- The YouTube watch-URL clause: `watch?v=ID` classifies to the embed
URL built from the captured id. -/
theorem classify_watch_aux {id : List Char} (hne : id ≠ [])
    (hall : ∀ c ∈ id, idChar c = true) :
    renderMessageContent ("https://www.youtube.com/watch?v=".data ++ id) =
      .youtube (String.mk ("https://www.youtube.com/embed/".data ++ id)) := by
  have hq : quotedUrl ("https://www.youtube.com/watch?v=".data ++ id) = none :=
    quotedUrl_none (forall_mem_append_split (by decide) (idAll_not_quote hall))
  have hsplit : "https://www.youtube.com/watch?v=".data ++ id =
      "https://".data ++ ("www.youtube.com/watch?v=".data ++ id) := by
    rw [show "https://www.youtube.com/watch?v=".data =
      "https://".data ++ "www.youtube.com/watch?v=".data from by decide, List.append_assoc]
  have hurl : isExactUrl ("https://www.youtube.com/watch?v=".data ++ id) = true := by
    rw [hsplit]
    exact isExactUrl_https (by simp)
      (forall_mem_append_split (by decide) (idAll_not_ws hall))
  have hlow : ("https://www.youtube.com/watch?v=".data ++ id).map Char.toLower =
      "https://www.youtube.com/watch?v=".data ++ id.map Char.toLower := by
    rw [List.map_append,
      show "https://www.youtube.com/watch?v=".data.map Char.toLower =
        "https://www.youtube.com/watch?v=".data from by decide]
  have hcontain : hasSub "youtube.com".data
      ("https://www.youtube.com/watch?v=".data ++ id.map Char.toLower) = true :=
    hasSub_append_left _ (by decide)
  have hamp : ∀ c ∈ id, c ≠ '&' := fun c hc => (idAll_ne_mark hall c hc).2
  have htw : id.takeWhile (fun ch => ch ≠ '&') = id :=
    takeWhile_all (fun c hc => by simp [hamp c hc])
  have hwatch : findVParam ("https://www.youtube.com/watch?v=".data ++ id) = some id := by
    rw [show "https://www.youtube.com/watch?v=".data ++ id =
      "https://www.youtube.com/watch".data ++ ('?' :: 'v' :: '=' :: id) from by
        rw [show "https://www.youtube.com/watch?v=".data =
          "https://www.youtube.com/watch".data ++ ('?' :: 'v' :: '=' :: []) from by decide,
          List.append_assoc]
        rfl]
    rw [findVParam_append_skip _ (by decide), findVParam_at (by rw [htw]; exact hne), htw]
  have hshort : findCapture "youtu.be/".data (fun c => c ≠ '?' && c ≠ '&')
      ("https://www.youtube.com/watch?v=".data ++ id) = none :=
    findCapture_append_none _ (by decide) (show '.' ∈ "youtu.be/".data by decide)
      (not_mem_of_idChar (by decide) hall)
  have hembed : findCapture "youtube.com/embed/".data (fun c => c ≠ '?' && c ≠ '&')
      ("https://www.youtube.com/watch?v=".data ++ id) = none :=
    findCapture_append_none _ (by decide) (show '/' ∈ "youtube.com/embed/".data by decide)
      (not_mem_of_idChar (by decide) hall)
  have hyt : ytCheck ("https://www.youtube.com/watch?v=".data ++ id)
      ("https://www.youtube.com/watch?v=".data ++ id.map Char.toLower) =
      some (.youtube (String.mk ("https://www.youtube.com/embed/".data ++ id))) := by
    rw [ytCheck, hcontain]
    simp only [Bool.true_or, if_true]
    rw [ytEmbedUrl]
    simp only [hwatch, hshort, hembed]
    rfl
  rw [renderMessageContent, hq]
  simp only [hurl, if_true]
  rw [classifyUrl]
  simp only [hlow, hyt, Option.orElse]

/-- The `youtu.be` short-URL clause. -/
theorem classify_short_aux {id : List Char} (hne : id ≠ [])
    (hall : ∀ c ∈ id, idChar c = true) :
    renderMessageContent ("https://youtu.be/".data ++ id) =
      .youtube (String.mk ("https://www.youtube.com/embed/".data ++ id)) := by
  have hq : quotedUrl ("https://youtu.be/".data ++ id) = none :=
    quotedUrl_none (forall_mem_append_split (by decide) (idAll_not_quote hall))
  have hsplit : "https://youtu.be/".data ++ id =
      "https://".data ++ ("youtu.be/".data ++ id) := by
    rw [show "https://youtu.be/".data = "https://".data ++ "youtu.be/".data from by decide,
      List.append_assoc]
  have hurl : isExactUrl ("https://youtu.be/".data ++ id) = true := by
    rw [hsplit]
    exact isExactUrl_https (by simp)
      (forall_mem_append_split (by decide) (idAll_not_ws hall))
  have hlow : ("https://youtu.be/".data ++ id).map Char.toLower =
      "https://youtu.be/".data ++ id.map Char.toLower := by
    rw [List.map_append,
      show "https://youtu.be/".data.map Char.toLower = "https://youtu.be/".data from by decide]
  have hcontain : hasSub "youtu.be".data
      ("https://youtu.be/".data ++ id.map Char.toLower) = true :=
    hasSub_append_left _ (by decide)
  have hkeep : id.takeWhile (fun c => c ≠ '?' && c ≠ '&') = id :=
    takeWhile_all (fun c hc => by
      have := idAll_ne_mark hall c hc
      simp [this.1, this.2])
  have hshort : findCapture "youtu.be/".data (fun c => c ≠ '?' && c ≠ '&')
      ("https://youtu.be/".data ++ id) = some id := by
    rw [hsplit, findCapture_skip _ (by decide), findCapture_at _ (by rw [hkeep]; exact hne),
      hkeep]
  have hembed : findCapture "youtube.com/embed/".data (fun c => c ≠ '?' && c ≠ '&')
      ("https://youtu.be/".data ++ id) = none :=
    findCapture_append_none _ (by decide) (show '/' ∈ "youtube.com/embed/".data by decide)
      (not_mem_of_idChar (by decide) hall)
  have hyt : ytCheck ("https://youtu.be/".data ++ id)
      ("https://youtu.be/".data ++ id.map Char.toLower) =
      some (.youtube (String.mk ("https://www.youtube.com/embed/".data ++ id))) := by
    rw [ytCheck, hcontain]
    simp only [Bool.or_true, if_true]
    rw [ytEmbedUrl]
    simp only [hshort, hembed]
    rfl
  rw [renderMessageContent, hq]
  simp only [hurl, if_true]
  rw [classifyUrl]
  simp only [hlow, hyt, Option.orElse]

/-- The TikTok clause: a `tiktok.com` URL containing `video/N` classifies
to the v2 embed URL. -/
theorem classify_tiktok_aux {id : List Char} (hne : id ≠ [])
    (hdig : ∀ c ∈ id, c ∈ digitList) :
    renderMessageContent ("https://www.tiktok.com/@user/video/".data ++ id) =
      .tiktok (String.mk ("https://www.tiktok.com/embed/v2/".data ++ id)) := by
  have hall : ∀ c ∈ id, idChar c = true := idChar_of_digit hdig
  have hq : quotedUrl ("https://www.tiktok.com/@user/video/".data ++ id) = none :=
    quotedUrl_none (forall_mem_append_split (by decide) (idAll_not_quote hall))
  have hsplit : "https://www.tiktok.com/@user/video/".data ++ id =
      "https://".data ++ ("www.tiktok.com/@user/video/".data ++ id) := by
    rw [show "https://www.tiktok.com/@user/video/".data =
      "https://".data ++ "www.tiktok.com/@user/video/".data from by decide, List.append_assoc]
  have hurl : isExactUrl ("https://www.tiktok.com/@user/video/".data ++ id) = true := by
    rw [hsplit]
    exact isExactUrl_https (by simp)
      (forall_mem_append_split (by decide) (idAll_not_ws hall))
  have hlow : ("https://www.tiktok.com/@user/video/".data ++ id).map Char.toLower =
      "https://www.tiktok.com/@user/video/".data ++ id := by
    rw [List.map_append, map_toLower_digits hdig,
      show "https://www.tiktok.com/@user/video/".data.map Char.toLower =
        "https://www.tiktok.com/@user/video/".data from by decide]
  have hyt : ytCheck ("https://www.tiktok.com/@user/video/".data ++ id)
      ("https://www.tiktok.com/@user/video/".data ++ id) = none := by
    rw [ytCheck]
    have h1 : hasSub "youtube.com".data ("https://www.tiktok.com/@user/video/".data ++ id) = false :=
      hasSub_append_false (by decide) (show '.' ∈ "youtube.com".data by decide)
        (not_mem_of_idChar (by decide) hall)
    have h2 : hasSub "youtu.be".data ("https://www.tiktok.com/@user/video/".data ++ id) = false :=
      hasSub_append_false (by decide) (show '.' ∈ "youtu.be".data by decide)
        (not_mem_of_idChar (by decide) hall)
    rw [h1, h2]
    simp
  have hvim : vimeoCheck ("https://www.tiktok.com/@user/video/".data ++ id)
      ("https://www.tiktok.com/@user/video/".data ++ id) = none := by
    rw [vimeoCheck]
    have h1 : hasSub "vimeo.com".data ("https://www.tiktok.com/@user/video/".data ++ id) = false :=
      hasSub_append_false (by decide) (show '.' ∈ "vimeo.com".data by decide)
        (not_mem_of_idChar (by decide) hall)
    rw [h1]
    simp
  have hdigAll : id.takeWhile Char.isDigit = id :=
    takeWhile_all (fun c hc => by
      have hfact : digitList.all Char.isDigit = true := by decide
      exact List.all_eq_true.mp hfact c (hdig c hc))
  have htik : tiktokCheck ("https://www.tiktok.com/@user/video/".data ++ id)
      ("https://www.tiktok.com/@user/video/".data ++ id) =
      some (.tiktok (String.mk ("https://www.tiktok.com/embed/v2/".data ++ id))) := by
    rw [tiktokCheck]
    have h1 : hasSub "tiktok.com".data ("https://www.tiktok.com/@user/video/".data ++ id) = true :=
      hasSub_append_left _ (by decide)
    have h2 : findCapture "video/".data Char.isDigit
        ("https://www.tiktok.com/@user/video/".data ++ id) = some id := by
      rw [show "https://www.tiktok.com/@user/video/".data ++ id =
        "https://www.tiktok.com/@user/".data ++ ("video/".data ++ id) from by
          rw [show "https://www.tiktok.com/@user/video/".data =
            "https://www.tiktok.com/@user/".data ++ "video/".data from by decide,
            List.append_assoc]]
      rw [findCapture_skip _ (by decide), findCapture_at _ (by rw [hdigAll]; exact hne), hdigAll]
    rw [h1, h2]
    simp
  rw [renderMessageContent, hq]
  simp only [hurl, if_true]
  rw [classifyUrl]
  simp only [hlow, hyt, hvim, htik, Option.orElse]

/-- The direct-media extension clause, checked over every listed
extension on a platform-free host, with and without a query string.
Audio extensions also present in the video list (`ogg`, `3gp`) are
claimed by the earlier video check and are exercised there. -/
def extClauseCheck : Bool :=
  (extListVideo.all (fun e =>
    (renderMessageContent ("https://x/a.".data ++ e.data) ==
      .video (String.mk ("https://x/a.".data ++ e.data))) &&
    (renderMessageContent ("https://x/a.".data ++ e.data ++ "?q=1".data) ==
      .video (String.mk ("https://x/a.".data ++ e.data ++ "?q=1".data))))) &&
  ((extListAudio.filter (fun e => !(extListVideo.contains e))).all (fun e =>
    (renderMessageContent ("https://x/a.".data ++ e.data) ==
      .audio (String.mk ("https://x/a.".data ++ e.data))) &&
    (renderMessageContent ("https://x/a.".data ++ e.data ++ "?q=1".data) ==
      .audio (String.mk ("https://x/a.".data ++ e.data ++ "?q=1".data))))) &&
  (extListImage.all (fun e =>
    (renderMessageContent ("https://x/a.".data ++ e.data) ==
      .image (String.mk ("https://x/a.".data ++ e.data))) &&
    (renderMessageContent ("https://x/a.".data ++ e.data ++ "?q=1".data) ==
      .image (String.mk ("https://x/a.".data ++ e.data ++ "?q=1".data)))))

/- ================= Spoiler parsing lemmas ================= -/

/-- Flattening a cons. -/
theorem flattenParts_cons (p : TextPart) (ps : List TextPart) :
    flattenParts (p :: ps) = flattenPart p ++ flattenParts ps := rfl

/-- Flattening distributes over append. -/
theorem flattenParts_append (a b : List TextPart) :
    flattenParts (a ++ b) = flattenParts a ++ flattenParts b := by
  induction a with
  | nil => simp [flattenParts]
  | cons p rest ih =>
    rw [List.cons_append, flattenParts_cons, flattenParts_cons, ih, List.append_assoc]

/-- The tail pass reconstructs its input text. -/
theorem flatten_parseTail : ∀ n, ∀ l : List Char, l.length ≤ n →
    flattenParts (parseTail l) = l := by
  intro n
  induction n with
  | zero =>
    intro l hl
    have hnil : l = [] := by
      cases l with
      | nil => rfl
      | cons c rest => simp at hl
    subst hnil
    rw [parseTail]
    split
    · simp [flattenParts]
    · next hfs => exact absurd hfs (by simp [findSpoiler])
  | succ n ih =>
    intro l hl
    rw [parseTail]
    split
    · next hfs =>
      by_cases he : l.isEmpty
      · simp only [he, if_true]
        rw [List.isEmpty_iff] at he
        simp [flattenParts, he]
      · simp only [he, if_false]
        simp [flattenParts, flattenPart]
    · next pre t ct rest hfs =>
      have hrec := findSpoiler_some hfs
      have hlen := findSpoiler_length hfs
      rw [flattenParts_append, flattenParts_cons]
      rw [ih rest (by omega)]
      by_cases hp : pre.isEmpty
      · simp only [hp, if_true]
        rw [List.isEmpty_iff] at hp
        subst hp
        rw [hrec]
        simp [flattenParts, flattenPart, List.append_assoc]
      · simp only [hp, if_false]
        rw [hrec]
        simp [flattenParts, flattenPart, List.append_assoc]

/-- The spoiler parse reconstructs the message text exactly: spoiler
blocks carry exactly the matched title and content, and surrounding text
is preserved verbatim in order. -/
theorem flatten_parseSpoilers (l : List Char) :
    flattenParts (parseSpoilers l) = l := by
  rw [parseSpoilers]
  cases hfs : findSpoiler l with
  | none => simp [flattenParts, flattenPart]
  | some q =>
    obtain ⟨pre, t, ct, rest⟩ := q
    have hrec := findSpoiler_some hfs
    have hlen := findSpoiler_length hfs
    rw [flattenParts_append, flattenParts_cons]
    rw [flatten_parseTail rest.length rest (by omega)]
    by_cases hp : pre.isEmpty
    · simp only [hp, if_true]
      rw [List.isEmpty_iff] at hp
      subst hp
      rw [hrec]
      simp [flattenParts, flattenPart, List.append_assoc]
    · simp only [hp, if_false]
      rw [hrec]
      simp [flattenParts, flattenPart, List.append_assoc]

/-- Head mismatch refutes a prefix test. -/
theorem isPrefixOf_cons_head_ne {a b : Char} {p l : List Char} (h : a ≠ b) :
    (a :: p).isPrefixOf (b :: l) = false := by
  simp [List.isPrefixOf, h]

/-- No spoiler match can start at a non-bracket character. -/
theorem spoilerAt_cons_ne {x : Char} {l : List Char} (hx : x ≠ '[') :
    spoilerAt (x :: l) = none := by
  rw [spoilerAt]
  rw [if_neg]
  rw [show "[spoiler:".data = '[' :: "spoiler:".data from by decide]
  simp [isPrefixOf_cons_head_ne (fun h => hx h.symm)]

/-- A bracket-free text contains no spoiler markup. -/
theorem findSpoiler_no_bracket : ∀ {l : List Char}, (∀ c ∈ l, c ≠ '[') →
    findSpoiler l = none := by
  intro l
  induction l with
  | nil => intro _; rfl
  | cons x rest ih =>
    intro h
    rw [findSpoiler]
    rw [spoilerAt_cons_ne (h x (by simp))]
    rw [ih (fun c hc => h c (List.mem_cons_of_mem x hc))]

/-- `takeWhile` over a satisfying block followed by a failing head. -/
theorem takeWhile_append_stop {p : Char → Bool} {t : List Char} {y : Char}
    (rest : List Char) (ht : ∀ x ∈ t, p x = true) (hy : p y = false) :
    (t ++ y :: rest).takeWhile p = t := by
  induction t with
  | nil => simp [List.takeWhile_cons, hy]
  | cons x t' ih =>
    rw [List.cons_append, List.takeWhile_cons, ht x (by simp)]
    simp only [if_true]
    rw [ih (fun x hx => ht x (List.mem_cons_of_mem _ hx))]

/-- Leftmost close-tag split of a bracket-free content block. -/
theorem splitOnSub_canonical {c0 : List Char} (b : List Char)
    (hc : ∀ x ∈ c0, x ≠ '[') :
    splitOnSub "[/spoiler]".data (c0 ++ ("[/spoiler]".data ++ b)) = some (c0, b) := by
  induction c0 with
  | nil =>
    rw [List.nil_append]
    rw [show "[/spoiler]".data ++ b = '[' :: ("/spoiler]".data ++ b) from by
      rw [show "[/spoiler]".data = '[' :: "/spoiler]".data from by decide]; rfl]
    rw [splitOnSub]
    rw [if_pos (by
      rw [show ('[' : Char) :: ("/spoiler]".data ++ b) = "[/spoiler]".data ++ b from by
        rw [show "[/spoiler]".data = '[' :: "/spoiler]".data from by decide]; rfl]
      rw [isPrefixOf_iff_pre]; exact List.prefix_append _ _)]
    rw [show ('[' : Char) :: ("/spoiler]".data ++ b) = "[/spoiler]".data ++ b from by
      rw [show "[/spoiler]".data = '[' :: "/spoiler]".data from by decide]; rfl]
    rw [List.drop_left]
  | cons x c0' ih =>
    rw [List.cons_append, splitOnSub]
    rw [if_neg]
    · rw [ih (fun c hcm => hc c (List.mem_cons_of_mem x hcm))]
    · rw [show "[/spoiler]".data = '[' :: "/spoiler]".data from by decide]
      rw [isPrefixOf_cons_head_ne (fun h => (hc x (by simp)) h.symm)]
      simp

/-- A canonical spoiler match anchored at the head. -/
theorem spoilerAt_canonical {t c0 : List Char} (b : List Char)
    (ht : ∀ x ∈ t, x ≠ ']') (hc : ∀ x ∈ c0, x ≠ '[') :
    spoilerAt ("[spoiler:".data ++ (t ++ (']' :: (c0 ++ ("[/spoiler]".data ++ b))))) =
      some (t, c0, b) := by
  rw [spoilerAt]
  rw [if_pos (by rw [isPrefixOf_iff_pre]; exact List.prefix_append _ _)]
  have hdrop : ("[spoiler:".data ++ (t ++ (']' :: (c0 ++ ("[/spoiler]".data ++ b))))).drop 9 =
      t ++ (']' :: (c0 ++ ("[/spoiler]".data ++ b))) := List.drop_left' (by decide)
  simp only [hdrop]
  have htw : (t ++ (']' :: (c0 ++ ("[/spoiler]".data ++ b)))).takeWhile
      (fun ch => ch ≠ ']') = t :=
    takeWhile_append_stop _ (fun x hx => by simp [ht x hx]) (by simp)
  simp only [htw]
  have hdrop2 : (t ++ (']' :: (c0 ++ ("[/spoiler]".data ++ b)))).drop t.length =
      ']' :: (c0 ++ ("[/spoiler]".data ++ b)) := List.drop_left _ _
  simp only [hdrop2]
  rw [splitOnSub_canonical b hc]
  rfl

/-- The leftmost spoiler match in a canonical one-spoiler text. -/
theorem findSpoiler_canonical {a t c0 : List Char} (b : List Char)
    (ha : ∀ x ∈ a, x ≠ '[') (ht : ∀ x ∈ t, x ≠ ']') (hc : ∀ x ∈ c0, x ≠ '[') :
    findSpoiler (a ++ ("[spoiler:".data ++ (t ++ (']' :: (c0 ++ ("[/spoiler]".data ++ b)))))) =
      some (a, t, c0, b) := by
  induction a with
  | nil =>
    rw [List.nil_append]
    cases hl : ("[spoiler:".data ++ (t ++ (']' :: (c0 ++ ("[/spoiler]".data ++ b))))) with
    | nil => simp at hl
    | cons x rest =>
      rw [findSpoiler, ← hl]
      rw [spoilerAt_canonical b ht hc]
  | cons x a' ih =>
    rw [List.cons_append, findSpoiler]
    rw [spoilerAt_cons_ne (ha x (by simp))]
    rw [ih (fun c hcm => ha c (List.mem_cons_of_mem x hcm))]

/-- A bracket-free tail parses to at most one text part. -/
theorem parseTail_no_bracket {b : List Char} (hb : ∀ x ∈ b, x ≠ '[') :
    parseTail b = if b.isEmpty then [] else [TextPart.text b] := by
  rw [parseTail]
  split
  · rfl
  · next pre t ct rest hfs =>
    rw [findSpoiler_no_bracket hb] at hfs
    exact absurd hfs (by simp)

/- ================= Key-value store lemmas ================= -/

/-- Filtering by a predicate implied by the search predicate does not
change the first hit. -/
theorem find?_filter_of_imp {α : Type} (p q : α → Bool) :
    ∀ l : List α, (∀ x, p x = true → q x = true) →
      (l.filter q).find? p = l.find? p := by
  intro l
  induction l with
  | nil => intro _; rfl
  | cons x rest ih =>
    intro h
    cases hq : q x with
    | true =>
      rw [List.filter_cons_of_pos hq, List.find?_cons, List.find?_cons]
      cases hp : p x with
      | true => rfl
      | false => exact ih h
    | false =>
      rw [List.filter_cons_of_neg (by simp [hq]), List.find?_cons]
      cases hp : p x with
      | true => rw [h x hp] at hq; exact absurd hq (by simp)
      | false => exact ih h

/-- Reading back the key just written. -/
theorem kvGet_kvSet_self (store : KV) (k : String) (v : Doc) :
    kvGet (kvSet store k v) k = some v := by
  simp [kvGet, kvSet, List.find?]

/-- Writing one key does not change another. -/
theorem kvGet_kvSet_ne (store : KV) (k : String) (v : Doc) (k' : String)
    (h : k' ≠ k) : kvGet (kvSet store k v) k' = kvGet store k' := by
  rw [kvGet, kvSet, List.find?_cons_of_neg _ (by simp; exact fun he => h he.symm)]
  rw [kvGet]
  congr 1
  exact find?_filter_of_imp _ _ store (by
    intro x hx
    simp at hx
    simp [hx, h])

/-- Deleting keys not containing `k` does not change `k`. -/
theorem kvGet_kvMdel_not_mem (store : KV) (ks : List String) (k : String)
    (h : k ∉ ks) : kvGet (kvMdel store ks) k = kvGet store k := by
  rw [kvMdel, kvGet, kvGet]
  congr 1
  exact find?_filter_of_imp _ _ store (by
    intro x hx
    simp at hx
    simp [hx]
    intro hm
    exact absurd hm h)

/-- A deleted key reads back nothing. -/
theorem kvGet_kvMdel_mem (store : KV) (ks : List String) (k : String)
    (h : k ∈ ks) : kvGet (kvMdel store ks) k = none := by
  rw [kvMdel, kvGet, Option.map_eq_none']
  rw [List.find?_eq_none]
  intro x hx
  rw [List.mem_filter] at hx
  intro hk
  simp at hk
  have := hx.2
  rw [hk] at this
  simp [h] at this

/-- Membership in a prefixed read. -/
theorem mem_kvGetPrefixed (store : KV) (pre : String) (d : Doc) :
    d ∈ kvGetPrefixed store pre ↔ ∃ k, (k, d) ∈ store ∧ keyHasPre pre k = true := by
  rw [kvGetPrefixed, List.mem_map]
  constructor
  · rintro ⟨p, hp, rfl⟩
    rw [List.mem_filter] at hp
    exact ⟨p.1, hp.1, hp.2⟩
  · rintro ⟨k, hk, hpre⟩
    exact ⟨(k, d), List.mem_filter.mpr ⟨hk, hpre⟩, rfl⟩

/-- String append acts on the underlying character lists. -/
theorem string_data_append (a b : String) : (a ++ b).data = a.data ++ b.data := rfl

/-- Message keys carry the `msg_` prefix. -/
theorem keyHasPre_msgKey (i : String) : keyHasPre "msg_" (msgKey i) = true := by
  rw [keyHasPre, msgKey, string_data_append, isPrefixOf_iff_pre]
  exact List.prefix_append _ _

/-- Message keys never collide with the stats key. -/
theorem msgKey_ne_statsKey (i : String) : msgKey i ≠ "chat_stats" := by
  intro h
  have hd := congrArg String.data h
  rw [msgKey, string_data_append] at hd
  rw [show "msg_".data = 'm' :: "sg_".data from by decide,
    show "chat_stats".data = 'c' :: "hat_stats".data from by decide] at hd
  rw [List.cons_append] at hd
  injection hd with h1 _
  exact absurd h1 (by decide)

/-- Message keys never collide with the settings key. -/
theorem msgKey_ne_settingsKey (i : String) : msgKey i ≠ "chat_settings" := by
  intro h
  have hd := congrArg String.data h
  rw [msgKey, string_data_append] at hd
  rw [show "msg_".data = 'm' :: "sg_".data from by decide,
    show "chat_settings".data = 'c' :: "hat_settings".data from by decide] at hd
  rw [List.cons_append] at hd
  injection hd with h1 _
  exact absurd h1 (by decide)

/- ================= Concrete fixtures ================= -/

/-- A concrete settings document. -/
def settingsDoc0 : SettingsDoc :=
  { backgroundImage := none, panelColor := "#1a1a1a", iconColor := "#64b5f6",
    panelOpacity := 0 }

/-- A concrete create request with the given id and timestamp. -/
def msgReq (i : String) (ts : Int) : CreateReq :=
  { id := i, username := "u", text := "a", timestamp := ts, replyTo := none,
    fileUrl := none, fileType := none, fileName := none, nameColor := none,
    messageBackground := none }

/-- A one-entry store holding a settings document under a message key. -/
def store0 : KV := [(msgKey "7", Doc.settings settingsDoc0)]

/-- A two-message store with out-of-order timestamps. -/
def store9 : KV :=
  [(msgKey "1", Doc.msg (mkMessage (msgReq "1" 9))),
   (msgKey "2", Doc.msg (mkMessage (msgReq "2" 3)))]

/- ================= Claim theorems ================= -/

/-- C1: for every delete request, the listed messages are removed from
the store iff the password equals the hardcoded `Ramakrishna`; any other
password yields the 403 response and leaves every stored document
untouched.  With the correct password exactly the listed keys are
deleted. -/
theorem c1_delete_password (store : KV) (ids : List String) (password : String) :
    ((postDelete store ids password).2 = DelResp.forbidden ↔ password ≠ "Ramakrishna") ∧
    (password = "Ramakrishna" →
      ∀ i ∈ ids, kvGet (postDelete store ids password).1 (msgKey i) = none) ∧
    (password = "Ramakrishna" →
      ∀ k, (∀ i ∈ ids, k ≠ msgKey i) →
        kvGet (postDelete store ids password).1 k = kvGet store k) ∧
    (password ≠ "Ramakrishna" → (postDelete store ids password).1 = store) := by
  by_cases hp : password = "Ramakrishna"
  · rw [postDelete, if_neg (by simp [hp])]
    refine ⟨by simp [hp], ?_, ?_, fun hcon => absurd hp hcon⟩
    · intro _ i hi
      exact kvGet_kvMdel_mem _ _ _ (List.mem_map_of_mem msgKey hi)
    · intro _ k hk
      refine kvGet_kvMdel_not_mem _ _ _ ?_
      intro hm
      rw [List.mem_map] at hm
      obtain ⟨i, hi, hkey⟩ := hm
      exact hk i hi hkey.symm
  · rw [postDelete, if_pos (by simp [hp])]
    exact ⟨by simp [hp], fun hcon => absurd hcon hp, fun hcon => absurd hcon hp, fun _ => rfl⟩

/-- C1 witness: a concrete delete with the right password removes the
listed message, and one with a wrong password is refused and leaves the
store unchanged. -/
theorem c1_delete_password_witness :
    ((postDelete store0 ["7"] "Ramakrishna").2 = DelResp.forbidden ↔
      ("Ramakrishna" : String) ≠ "Ramakrishna") ∧
    (("Ramakrishna" : String) = "Ramakrishna" →
      ∀ i ∈ ["7"], kvGet (postDelete store0 ["7"] "Ramakrishna").1 (msgKey i) = none) ∧
    (("Ramakrishna" : String) = "Ramakrishna" →
      ∀ k, (∀ i ∈ ["7"], k ≠ msgKey i) →
        kvGet (postDelete store0 ["7"] "Ramakrishna").1 k = kvGet store0 k) ∧
    (("Ramakrishna" : String) ≠ "Ramakrishna" →
      (postDelete store0 ["7"] "Ramakrishna").1 = store0) :=
  c1_delete_password _ _ _

/-- C9: for every state of the store, the message listing is sorted in
non-decreasing order of the `timestamp` field. -/
theorem c9_messages_sorted (store : KV) :
    (getMessagesList store).Pairwise (fun a b => timestampOf a ≤ timestampOf b) := by
  have h := List.sorted_insertionSort docLe (kvGetPrefixed store "msg_")
  exact h.imp (fun hab => hab)

/-- C9 witness: the listing of a concrete two-message store is sorted. -/
theorem c9_messages_sorted_witness :
    (getMessagesList store9).Pairwise (fun a b => timestampOf a ≤ timestampOf b) :=
  c9_messages_sorted _

/-- The store transition of an edit is either the identity or a single
write to the edited message key. -/
theorem postEdit_store_cases (store : KV) (i t u : Option String) (now : Int) :
    (postEdit store i t u now).1 = store ∨
    ∃ id d, i = some id ∧ (postEdit store i t u now).1 = kvSet store (msgKey id) d := by
  rcases i with _ | id
  · left; rfl
  · rcases t with _ | nt
    · left; rfl
    · rcases u with _ | un
      · left; rfl
      · rw [postEdit]
        split
        · left; rfl
        · split
          · next m heq =>
            split
            · left; rfl
            · right; exact ⟨id, _, rfl, rfl⟩
          · left; rfl
          · left; rfl

/-- The view-count transition of each backend operation. -/
theorem c10_views_eq (store : KV) (op : Op) :
    storedViews (applyOp store op) =
      storedViews store +
        (match op with
         | .presence _ true _ => 1
         | _ => 0) := by
  cases op with
  | getMessages => simp [applyOp]
  | uploadFile => simp [applyOp]
  | uploadBackground => simp [applyOp]
  | getSettings => simp [applyOp]
  | statsRead now => simp [applyOp, getStats]
  | postMessage r =>
    simp only [applyOp, postMessages]
    rw [storedViews, getChatStats,
      kvGet_kvSet_ne _ _ _ _ (fun h => msgKey_ne_statsKey r.id h.symm)]
    rfl
  | updateSettings s =>
    simp only [applyOp, postSettings]
    rw [storedViews, getChatStats,
      kvGet_kvSet_ne _ _ _ _ (by decide)]
    rfl
  | deleteMessages ids pw =>
    simp only [applyOp, postDelete]
    by_cases hp : pw = "Ramakrishna"
    · rw [if_neg (by simp [hp])]
      rw [storedViews, getChatStats, kvGet_kvMdel_not_mem _ _ _ (by
        intro hm
        rw [List.mem_map] at hm
        obtain ⟨i, _, hkey⟩ := hm
        exact msgKey_ne_statsKey i hkey)]
      rfl
    · rw [if_pos (by simp [hp])]
      simp
  | editMessage i t u now =>
    simp only [applyOp]
    rcases postEdit_store_cases store i t u now with hs | ⟨id, d, _, hs⟩
    · rw [hs]; simp
    · rw [hs, storedViews, getChatStats,
        kvGet_kvSet_ne _ _ _ _ (fun h => msgKey_ne_statsKey id h.symm)]
      rfl
  | presence uid isNew now =>
    simp only [applyOp, postPresence]
    rw [storedViews, getChatStats, kvGet_kvSet_self]
    cases isNew with
    | true => rfl
    | false => rfl

/-- C10: the stored view count is invariant under every backend
operation except a presence update flagged as a new visit, which
increments it by exactly one; in particular it never decreases. -/
theorem c10_views_monotone (store : KV) (op : Op) :
    storedViews store ≤ storedViews (applyOp store op) ∧
    storedViews (applyOp store op) =
      storedViews store +
        (match op with
         | .presence _ true _ => 1
         | _ => 0) := by
  refine ⟨?_, ?_⟩
  case refine_1 =>
    rcases c10_views_eq store op with h
    rw [h]
    exact Nat.le_add_right _ _
  case refine_2 => exact c10_views_eq store op

/-- C2 counterexample: a stats read at time 100000 over a store holding a
presence record last seen at time 0 leaves the stale record stored, so
the records retained after the read are not within the 10-second
window. -/
theorem c2_stats_counterexample :
    (getStats (kvSet [] "chat_stats"
        (Doc.stats { views := 0, onlineUsers := [{ id := "u", lastSeen := 0 }] })) 100000).1 =
      kvSet [] "chat_stats"
        (Doc.stats { views := 0, onlineUsers := [{ id := "u", lastSeen := 0 }] }) ∧
    storedUsers (getStats (kvSet [] "chat_stats"
        (Doc.stats { views := 0, onlineUsers := [{ id := "u", lastSeen := 0 }] })) 100000).1 =
      [{ id := "u", lastSeen := 0 }] ∧
    inWindow 100000 { id := "u", lastSeen := 0 } = false := by
  refine ⟨rfl, ?_, by decide⟩
  rw [storedUsers, getChatStats]
  rw [show (getStats (kvSet [] "chat_stats"
      (Doc.stats { views := 0, onlineUsers := [{ id := "u", lastSeen := 0 }] })) 100000).1 =
    kvSet [] "chat_stats"
      (Doc.stats { views := 0, onlineUsers := [{ id := "u", lastSeen := 0 }] }) from rfl]
  rw [kvGet_kvSet_self]

/-- C2 (amended): a presence update persists exactly the pruned record
list (every stored record afterwards lies within the 10-second window),
while a stats read leaves the stored records unchanged and prunes only
the in-memory copy used to compute the reported online count. -/
theorem c2_presence_pruning (store : KV) (uid : String) (isNew : Bool) (now : Int) :
    storedUsers (postPresence store uid isNew now).1 =
      (updateSeen (storedUsers store) uid now).filter (inWindow now) ∧
    (∀ u ∈ storedUsers (postPresence store uid isNew now).1, inWindow now u = true) ∧
    (getStats store now).1 = store ∧
    (getStats store now).2.onlineCount =
      ((storedUsers store).filter (inWindow now)).length := by
  have hmain : storedUsers (postPresence store uid isNew now).1 =
      (updateSeen (storedUsers store) uid now).filter (inWindow now) := by
    rw [postPresence, storedUsers, getChatStats, kvGet_kvSet_self]
    rfl
  refine ⟨hmain, ?_, rfl, rfl⟩
  intro u hu
  rw [hmain] at hu
  exact (List.mem_filter.mp hu).2

/-- C2 witness: the amended statement at a concrete store and time. -/
theorem c2_presence_pruning_witness :
    storedUsers (postPresence store0 "u" true 5).1 =
      (updateSeen (storedUsers store0) "u" 5).filter (inWindow 5) ∧
    (∀ u ∈ storedUsers (postPresence store0 "u" true 5).1, inWindow 5 u = true) ∧
    (getStats store0 5).1 = store0 ∧
    (getStats store0 5).2.onlineCount =
      ((storedUsers store0).filter (inWindow 5)).length :=
  c2_presence_pruning _ _ _ _

/-- The create request of the C3 failing input: the client sends a
per-user display color. -/
def c3Req : CreateReq :=
  { id := "1", username := "alice", text := "hi", timestamp := 5, replyTo := none,
    fileUrl := none, fileType := none, fileName := none,
    nameColor := some "#ebef00", messageBackground := some "#003a21" }

/-- C3: the backend rebuilds the stored document from eight fields only,
so a create request carrying a per-user display color stores a document
with no color: the code drops a field the client sends and later reads
back for rendering. -/
theorem c3_create_drops_color :
    c3Req.nameColor = some "#ebef00" ∧
    c3Req.messageBackground = some "#003a21" ∧
    kvGet (postMessages [] c3Req).1 (msgKey "1") = some (Doc.msg (mkMessage c3Req)) ∧
    (mkMessage c3Req).nameColor = none ∧
    (mkMessage c3Req).messageBackground = none := by
  refine ⟨rfl, rfl, ?_, rfl, rfl⟩
  exact kvGet_kvSet_self _ _ _

/-- C4: creating a message stores its document under `msg_<id>`, and the
listing returns exactly the documents stored under keys with the `msg_`
prefix (settings and stats live under unprefixed keys and are never
returned). -/
theorem c4_key_discipline (store : KV) (r : CreateReq) (d : Doc) :
    kvGet (postMessages store r).1 (msgKey r.id) = some (Doc.msg (mkMessage r)) ∧
    keyHasPre "msg_" (msgKey r.id) = true ∧
    (getMessagesList store).Perm (kvGetPrefixed store "msg_") ∧
    (d ∈ getMessagesList store ↔ ∃ k, (k, d) ∈ store ∧ keyHasPre "msg_" k = true) ∧
    keyHasPre "msg_" "chat_stats" = false ∧
    keyHasPre "msg_" "chat_settings" = false := by
  refine ⟨kvGet_kvSet_self _ _ _, keyHasPre_msgKey r.id,
    List.perm_insertionSort docLe (kvGetPrefixed store "msg_"), ?_, by decide, by decide⟩
  rw [getMessagesList]
  rw [(List.perm_insertionSort docLe (kvGetPrefixed store "msg_")).mem_iff]
  exact mem_kvGetPrefixed store "msg_" d

/-- C4 witness: the key discipline at a concrete store, request and
document. -/
theorem c4_key_discipline_witness :
    kvGet (postMessages store9 (msgReq "3" 4)).1 (msgKey "3") =
      some (Doc.msg (mkMessage (msgReq "3" 4))) ∧
    keyHasPre "msg_" (msgKey "3") = true ∧
    (getMessagesList store9).Perm (kvGetPrefixed store9 "msg_") ∧
    (Doc.settings settingsDoc0 ∈ getMessagesList store9 ↔
      ∃ k, (k, Doc.settings settingsDoc0) ∈ store9 ∧ keyHasPre "msg_" k = true) ∧
    keyHasPre "msg_" "chat_stats" = false ∧
    keyHasPre "msg_" "chat_settings" = false :=
  c4_key_discipline store9 (msgReq "3" 4) (Doc.settings settingsDoc0)

/-- C5: a successful edit stores the old document with only `text`
replaced by the trimmed new text and the `editedAt` marker set; every
other field of the document and every other stored key is unchanged. -/
theorem c5_edit_frame (store : KV) (id newText username : String) (now : Int)
    (m : MsgDoc) (hid : id ≠ "") (husr : username ≠ "")
    (hkv : kvGet store (msgKey id) = some (Doc.msg m)) (hauth : m.username = username) :
    (postEdit store (some id) (some newText) (some username) now).2 =
      EditResp.ok { m with text := newText.trim, editedAt := some now } ∧
    kvGet (postEdit store (some id) (some newText) (some username) now).1 (msgKey id) =
      some (Doc.msg { m with text := newText.trim, editedAt := some now }) ∧
    (∀ k, k ≠ msgKey id →
      kvGet (postEdit store (some id) (some newText) (some username) now).1 k =
        kvGet store k) ∧
    ({ m with text := newText.trim, editedAt := some now } : MsgDoc).id = m.id ∧
    ({ m with text := newText.trim, editedAt := some now } : MsgDoc).username = m.username ∧
    ({ m with text := newText.trim, editedAt := some now } : MsgDoc).timestamp = m.timestamp ∧
    ({ m with text := newText.trim, editedAt := some now } : MsgDoc).replyTo = m.replyTo ∧
    ({ m with text := newText.trim, editedAt := some now } : MsgDoc).fileUrl = m.fileUrl ∧
    ({ m with text := newText.trim, editedAt := some now } : MsgDoc).fileType = m.fileType ∧
    ({ m with text := newText.trim, editedAt := some now } : MsgDoc).fileName = m.fileName := by
  have hstep : postEdit store (some id) (some newText) (some username) now =
      (kvSet store (msgKey id) (Doc.msg { m with text := newText.trim, editedAt := some now }),
        EditResp.ok { m with text := newText.trim, editedAt := some now }) := by
    rw [postEdit]
    rw [if_neg (by simp [hid, husr])]
    simp only [hkv]
    rw [if_neg (by simp [hauth])]
  rw [hstep]
  refine ⟨rfl, kvGet_kvSet_self _ _ _, ?_, rfl, rfl, rfl, rfl, rfl, rfl, rfl⟩
  intro k hk
  exact kvGet_kvSet_ne _ _ _ _ hk

/-- A concrete stored message used by the edit witnesses. -/
def m0 : MsgDoc := mkMessage (msgReq "5" 2)

/-- A concrete store holding `m0` under its message key. -/
def storeEdit : KV := [(msgKey "5", Doc.msg m0)]

/-- C5 witness: the frame property of a concrete successful edit. -/
theorem c5_edit_frame_witness :
    (postEdit storeEdit (some "5") (some " new ") (some "u") 7).2 =
      EditResp.ok { m0 with text := " new ".trim, editedAt := some 7 } ∧
    kvGet (postEdit storeEdit (some "5") (some " new ") (some "u") 7).1 (msgKey "5") =
      some (Doc.msg { m0 with text := " new ".trim, editedAt := some 7 }) ∧
    (∀ k, k ≠ msgKey "5" →
      kvGet (postEdit storeEdit (some "5") (some " new ") (some "u") 7).1 k =
        kvGet storeEdit k) ∧
    ({ m0 with text := " new ".trim, editedAt := some 7 } : MsgDoc).id = m0.id ∧
    ({ m0 with text := " new ".trim, editedAt := some 7 } : MsgDoc).username = m0.username ∧
    ({ m0 with text := " new ".trim, editedAt := some 7 } : MsgDoc).timestamp = m0.timestamp ∧
    ({ m0 with text := " new ".trim, editedAt := some 7 } : MsgDoc).replyTo = m0.replyTo ∧
    ({ m0 with text := " new ".trim, editedAt := some 7 } : MsgDoc).fileUrl = m0.fileUrl ∧
    ({ m0 with text := " new ".trim, editedAt := some 7 } : MsgDoc).fileType = m0.fileType ∧
    ({ m0 with text := " new ".trim, editedAt := some 7 } : MsgDoc).fileName = m0.fileName :=
  c5_edit_frame storeEdit "5" " new " "u" 7 m0 (by decide) (by decide) (by rfl) (by rfl)

/-- C8: an edit succeeds exactly when all three parameters are present
and non-falsy, the message exists, and the requester's username equals
the stored username case-sensitively; missing parameters yield 400, a
missing message 404, a username mismatch 403, and every failure leaves
the store unchanged. -/
theorem c8_edit_authorization (store : KV) (i t u : Option String) (now : Int) :
    ((∃ m, (postEdit store i t u now).2 = EditResp.ok m) ↔
      (∃ id text user m, i = some id ∧ t = some text ∧ u = some user ∧
        id ≠ "" ∧ user ≠ "" ∧ kvGet store (msgKey id) = some (Doc.msg m) ∧
        m.username = user)) ∧
    ((i = none ∨ t = none ∨ u = none ∨ i = some "" ∨ u = some "") →
      (postEdit store i t u now).2 = EditResp.badRequest) ∧
    (∀ id text user, i = some id → t = some text → u = some user →
      id ≠ "" → user ≠ "" → kvGet store (msgKey id) = none →
      (postEdit store i t u now).2 = EditResp.notFound) ∧
    (∀ id text user m, i = some id → t = some text → u = some user →
      id ≠ "" → user ≠ "" → kvGet store (msgKey id) = some (Doc.msg m) →
      m.username ≠ user → (postEdit store i t u now).2 = EditResp.forbidden) ∧
    ((¬ ∃ m, (postEdit store i t u now).2 = EditResp.ok m) →
      (postEdit store i t u now).1 = store) := by
  rcases i with _ | id
  · refine ⟨by simp [postEdit], fun _ => rfl, ?_, ?_, fun _ => rfl⟩
    · intro id text user hi
      exact absurd hi (by simp)
    · intro id text user m hi
      exact absurd hi (by simp)
  · rcases t with _ | nt
    · refine ⟨by simp [postEdit], fun _ => rfl, ?_, ?_, fun _ => rfl⟩
      · intro id' text user _ ht
        exact absurd ht (by simp)
      · intro id' text user m _ ht
        exact absurd ht (by simp)
    · rcases u with _ | un
      · refine ⟨by simp [postEdit], fun _ => rfl, ?_, ?_, fun _ => rfl⟩
        · intro id' text user _ _ hu
          exact absurd hu (by simp)
        · intro id' text user m _ _ hu
          exact absurd hu (by simp)
      · by_cases h0 : id = "" ∨ un = ""
        · have hbad : postEdit store (some id) (some nt) (some un) now =
              (store, EditResp.badRequest) := by
            rw [postEdit, if_pos h0]
          rw [hbad]
          refine ⟨?_, fun _ => rfl, ?_, ?_, fun _ => rfl⟩
          · constructor
            · rintro ⟨m, hm⟩
              exact absurd hm (by simp)
            · rintro ⟨id', text, user, m, hi, ht, hu, hid', huser, _, _⟩
              injection hi with hi
              subst hi
              injection hu with hu
              subst hu
              rcases h0 with h0 | h0
              · exact absurd h0 hid'
              · exact absurd h0 huser
          · intro id' text user hi ht hu hid' huser hkv
            injection hi with hi
            subst hi
            injection hu with hu
            subst hu
            rcases h0 with h0 | h0
            · exact absurd h0 hid'
            · exact absurd h0 huser
          · intro id' text user m hi ht hu hid' huser hkv hne
            injection hi with hi
            subst hi
            injection hu with hu
            subst hu
            rcases h0 with h0 | h0
            · exact absurd h0 hid'
            · exact absurd h0 huser
        · push_neg at h0
          have hcond : ¬ (id = "" ∨ un = "") := by simp [h0.1, h0.2]
          cases hkv : kvGet store (msgKey id) with
          | none =>
            have hnf : postEdit store (some id) (some nt) (some un) now =
                (store, EditResp.notFound) := by
              rw [postEdit, if_neg hcond]
              simp only [hkv]
            rw [hnf]
            refine ⟨?_, ?_, fun _ _ _ _ _ _ _ _ _ => rfl, ?_, fun _ => rfl⟩
            · constructor
              · rintro ⟨m, hm⟩
                exact absurd hm (by simp)
              · rintro ⟨id', text, user, m, hi, ht, hu, hid', huser, hkv', _⟩
                injection hi with hi
                subst hi
                rw [hkv] at hkv'
                exact absurd hkv' (by simp)
            · rintro (h | h | h | h | h)
              · exact absurd h (by simp)
              · exact absurd h (by simp)
              · exact absurd h (by simp)
              · injection h with h
                exact absurd h h0.1
              · injection h with h
                exact absurd h h0.2
            · intro id' text user m hi ht hu hid' huser hkv' hne
              injection hi with hi
              subst hi
              rw [hkv] at hkv'
              exact absurd hkv' (by simp)
          | some d =>
            cases d with
            | msg m =>
              by_cases husr : m.username = un
              · have hok : postEdit store (some id) (some nt) (some un) now =
                    (kvSet store (msgKey id)
                      (Doc.msg { m with text := nt.trim, editedAt := some now }),
                     EditResp.ok { m with text := nt.trim, editedAt := some now }) := by
                  rw [postEdit, if_neg hcond]
                  simp only [hkv]
                  rw [if_neg (by simp [husr])]
                rw [hok]
                refine ⟨?_, ?_, ?_, ?_, ?_⟩
                · constructor
                  · intro _
                    exact ⟨id, nt, un, m, rfl, rfl, rfl, h0.1, h0.2, hkv, husr⟩
                  · intro _
                    exact ⟨{ m with text := nt.trim, editedAt := some now }, rfl⟩
                · rintro (h | h | h | h | h)
                  · exact absurd h (by simp)
                  · exact absurd h (by simp)
                  · exact absurd h (by simp)
                  · injection h with h
                    exact absurd h h0.1
                  · injection h with h
                    exact absurd h h0.2
                · intro id' text user hi ht hu hid' huser hkv'
                  injection hi with hi
                  subst hi
                  rw [hkv] at hkv'
                  exact absurd hkv' (by simp)
                · intro id' text user m' hi ht hu hid' huser hkv' hne
                  injection hi with hi
                  subst hi
                  injection hu with hu
                  subst hu
                  rw [hkv] at hkv'
                  injection hkv' with hkv'
                  injection hkv' with hkv'
                  subst hkv'
                  exact absurd husr hne
                · intro hcon
                  exact absurd ⟨{ m with text := nt.trim, editedAt := some now }, rfl⟩ hcon
              · have hforb : postEdit store (some id) (some nt) (some un) now =
                    (store, EditResp.forbidden) := by
                  rw [postEdit, if_neg hcond]
                  simp only [hkv]
                  rw [if_pos (by simp [husr])]
                rw [hforb]
                refine ⟨?_, ?_, ?_, fun _ _ _ _ _ _ _ _ _ _ _ => rfl, fun _ => rfl⟩
                · constructor
                  · rintro ⟨m', hm⟩
                    exact absurd hm (by simp)
                  · rintro ⟨id', text, user, m', hi, ht, hu, hid', huser, hkv', husr'⟩
                    injection hi with hi
                    subst hi
                    injection hu with hu
                    subst hu
                    rw [hkv] at hkv'
                    injection hkv' with hkv'
                    injection hkv' with hkv'
                    subst hkv'
                    exact absurd husr' husr
                · rintro (h | h | h | h | h)
                  · exact absurd h (by simp)
                  · exact absurd h (by simp)
                  · exact absurd h (by simp)
                  · injection h with h
                    exact absurd h h0.1
                  · injection h with h
                    exact absurd h h0.2
                · intro id' text user hi ht hu hid' huser hkv'
                  injection hi with hi
                  subst hi
                  rw [hkv] at hkv'
                  exact absurd hkv' (by simp)
            | stats sd =>
              have hforb : postEdit store (some id) (some nt) (some un) now =
                  (store, EditResp.forbidden) := by
                rw [postEdit, if_neg hcond]
                simp only [hkv]
              rw [hforb]
              refine ⟨?_, ?_, ?_, ?_, fun _ => rfl⟩
              · constructor
                · rintro ⟨m', hm⟩
                  exact absurd hm (by simp)
                · rintro ⟨id', text, user, m', hi, ht, hu, hid', huser, hkv', husr'⟩
                  injection hi with hi
                  subst hi
                  rw [hkv] at hkv'
                  exact absurd hkv' (by simp)
              · rintro (h | h | h | h | h)
                · exact absurd h (by simp)
                · exact absurd h (by simp)
                · exact absurd h (by simp)
                · injection h with h
                  exact absurd h h0.1
                · injection h with h
                  exact absurd h h0.2
              · intro id' text user hi ht hu hid' huser hkv'
                injection hi with hi
                subst hi
                rw [hkv] at hkv'
                exact absurd hkv' (by simp)
              · intro id' text user m' hi ht hu hid' huser hkv' hne
                injection hi with hi
                subst hi
                rw [hkv] at hkv'
            | settings sd =>
              have hforb : postEdit store (some id) (some nt) (some un) now =
                  (store, EditResp.forbidden) := by
                rw [postEdit, if_neg hcond]
                simp only [hkv]
              rw [hforb]
              refine ⟨?_, ?_, ?_, ?_, fun _ => rfl⟩
              · constructor
                · rintro ⟨m', hm⟩
                  exact absurd hm (by simp)
                · rintro ⟨id', text, user, m', hi, ht, hu, hid', huser, hkv', husr'⟩
                  injection hi with hi
                  subst hi
                  rw [hkv] at hkv'
                  exact absurd hkv' (by simp)
              · rintro (h | h | h | h | h)
                · exact absurd h (by simp)
                · exact absurd h (by simp)
                · exact absurd h (by simp)
                · injection h with h
                  exact absurd h h0.1
                · injection h with h
                  exact absurd h h0.2
              · intro id' text user hi ht hu hid' huser hkv'
                injection hi with hi
                subst hi
                rw [hkv] at hkv'
                exact absurd hkv' (by simp)
              · intro id' text user m' hi ht hu hid' huser hkv' hne
                injection hi with hi
                subst hi
                rw [hkv] at hkv'

/-- C8 witness: the authorization conditions at a concrete store and
request. -/
theorem c8_edit_authorization_witness :
    ((∃ m, (postEdit storeEdit (some "5") (some " new ") (some "u") 3).2 =
        EditResp.ok m) ↔
      (∃ id text user m, (some "5" : Option String) = some id ∧
        (some " new " : Option String) = some text ∧
        (some "u" : Option String) = some user ∧
        id ≠ "" ∧ user ≠ "" ∧ kvGet storeEdit (msgKey id) = some (Doc.msg m) ∧
        m.username = user)) ∧
    (((some "5" : Option String) = none ∨ (some " new " : Option String) = none ∨
        (some "u" : Option String) = none ∨ (some "5" : Option String) = some "" ∨
        (some "u" : Option String) = some "") →
      (postEdit storeEdit (some "5") (some " new ") (some "u") 3).2 =
        EditResp.badRequest) ∧
    (∀ id text user, (some "5" : Option String) = some id →
      (some " new " : Option String) = some text →
      (some "u" : Option String) = some user →
      id ≠ "" → user ≠ "" → kvGet storeEdit (msgKey id) = none →
      (postEdit storeEdit (some "5") (some " new ") (some "u") 3).2 =
        EditResp.notFound) ∧
    (∀ id text user m, (some "5" : Option String) = some id →
      (some " new " : Option String) = some text →
      (some "u" : Option String) = some user →
      id ≠ "" → user ≠ "" → kvGet storeEdit (msgKey id) = some (Doc.msg m) →
      m.username ≠ user →
      (postEdit storeEdit (some "5") (some " new ") (some "u") 3).2 =
        EditResp.forbidden) ∧
    ((¬ ∃ m, (postEdit storeEdit (some "5") (some " new ") (some "u") 3).2 =
        EditResp.ok m) →
      (postEdit storeEdit (some "5") (some " new ") (some "u") 3).1 = storeEdit) :=
  c8_edit_authorization storeEdit (some "5") (some " new ") (some "u") 3

/-- C7: the spoiler parse reconstructs every message text exactly, and a
canonical occurrence of the markup becomes one spoiler block carrying
exactly its title and content, with the surrounding text preserved in
order. -/
theorem c7_spoiler_parsing :
    (∀ l : List Char, flattenParts (parseSpoilers l) = l) ∧
    (∀ a t c b : List Char, (∀ x ∈ a, x ≠ '[') → (∀ x ∈ t, x ≠ ']') →
      (∀ x ∈ c, x ≠ '[') → (∀ x ∈ b, x ≠ '[') →
      parseSpoilers
          (a ++ ("[spoiler:".data ++ (t ++ (']' :: (c ++ ("[/spoiler]".data ++ b)))))) =
        (if a.isEmpty then [] else [TextPart.text a]) ++
          TextPart.spoiler t c :: (if b.isEmpty then [] else [TextPart.text b])) := by
  refine ⟨flatten_parseSpoilers, ?_⟩
  intro a t c b ha ht hc hb
  rw [parseSpoilers, findSpoiler_canonical b ha ht hc]
  simp only [parseTail_no_bracket hb]

/-- C7 witness: the parse of a concrete spoiler message. -/
theorem c7_spoiler_parsing_witness :
    flattenParts (parseSpoilers "abc".data) = "abc".data ∧
    parseSpoilers ("intro ".data ++ ("[spoiler:".data ++
        ("T".data ++ (']' :: ("secret".data ++ ("[/spoiler]".data ++ " tail".data)))))) =
      (if "intro ".data.isEmpty then [] else [TextPart.text "intro ".data]) ++
        TextPart.spoiler "T".data "secret".data ::
          (if " tail".data.isEmpty then [] else [TextPart.text " tail".data]) :=
  ⟨c7_spoiler_parsing.1 _,
   c7_spoiler_parsing.2 _ _ _ _ (by decide) (by decide) (by decide) (by decide)⟩

/-- C6 counterexample: a URL ending in the recognised video extension
`.mp4` but hosted on `twitch.tv` renders as a Twitch embed, not as
inline video, because the Twitch check runs before the extension
checks. -/
theorem c6_platform_precedence_counterexample :
    extMatch extListVideo ("https://www.twitch.tv/clip.mp4".data.map Char.toLower) = true ∧
    renderMessageContent "https://www.twitch.tv/clip.mp4".data =
      Rendered.twitch (String.mk "clip.mp4".data) ∧
    renderMessageContent "https://www.twitch.tv/clip.mp4".data ≠
      Rendered.video (String.mk "https://www.twitch.tv/clip.mp4".data) := by
  refine ⟨by decide, by decide, by decide⟩

/-- C6 (amended): the client URL classifier maps YouTube watch and short
URLs to the corresponding embed URL, numeric Vimeo URLs to the player
URL, TikTok `video/N` URLs to the v2 embed URL, and a URL ending in a
recognised video, audio or image extension (optionally followed by a
query string) to inline media of that kind, in that order, provided it
does not match one of the interposed platform checks (Twitch,
Dailymotion, SoundCloud); an extension in both the video and audio lists
is claimed by the earlier video check. -/
theorem c6_url_classification :
    (∀ id : List Char, id ≠ [] → (∀ c ∈ id, idChar c = true) →
      renderMessageContent ("https://www.youtube.com/watch?v=".data ++ id) =
        Rendered.youtube (String.mk ("https://www.youtube.com/embed/".data ++ id))) ∧
    (∀ id : List Char, id ≠ [] → (∀ c ∈ id, idChar c = true) →
      renderMessageContent ("https://youtu.be/".data ++ id) =
        Rendered.youtube (String.mk ("https://www.youtube.com/embed/".data ++ id))) ∧
    (∀ id : List Char, id ≠ [] → (∀ c ∈ id, c ∈ digitList) →
      renderMessageContent ("https://vimeo.com/".data ++ id) =
        Rendered.vimeo (String.mk ("https://player.vimeo.com/video/".data ++ id))) ∧
    (∀ id : List Char, id ≠ [] → (∀ c ∈ id, c ∈ digitList) →
      renderMessageContent ("https://www.tiktok.com/@user/video/".data ++ id) =
        Rendered.tiktok (String.mk ("https://www.tiktok.com/embed/v2/".data ++ id))) ∧
    extClauseCheck = true :=
  ⟨fun _ h1 h2 => classify_watch_aux h1 h2,
   fun _ h1 h2 => classify_short_aux h1 h2,
   fun _ h1 h2 => classify_vimeo_aux h1 h2,
   fun _ h1 h2 => classify_tiktok_aux h1 h2,
   by decide⟩

/-- C6 witness: the classifier at concrete YouTube and Vimeo URLs. -/
theorem c6_url_classification_witness :
    renderMessageContent ("https://www.youtube.com/watch?v=".data ++ "dQw4w9WgXcQ".data) =
      Rendered.youtube (String.mk ("https://www.youtube.com/embed/".data ++ "dQw4w9WgXcQ".data)) ∧
    renderMessageContent ("https://vimeo.com/".data ++ "76979871".data) =
      Rendered.vimeo (String.mk ("https://player.vimeo.com/video/".data ++ "76979871".data)) :=
  ⟨c6_url_classification.1 "dQw4w9WgXcQ".data (by decide) (by decide),
   c6_url_classification.2.2.1 "76979871".data (by decide) (by decide)⟩
